/-
Verification of the mr-cfg maximal-repeat grammar compressor against its
specification.  The C++ sources (main.cpp, cfg.hpp, identifier.hpp,
interval.hpp, lcp.hpp) are shallowly embedded: `std::map` and
`std::unordered_map` states become key-unique association lists, the
coroutine LCP-interval generator becomes a fuel-indexed state machine,
and unsigned 64-bit quantities become `Nat` (ids are small non-negative
integers throughout; the only 64-bit constant that matters, the all-ones
sentinel value, is kept exact as `SENTINEL`).
-/
import Mathlib

set_option maxHeartbeats 1000000

namespace MrCfg

/-! ### Association-list helpers

`std::map` / `std::unordered_map` states are modelled as key-unique
association lists; `std::map`-specific ordered queries are expressed
directly in terms of the key set. -/

/-- Value stored at key `k`, if present. -/
def mapFind (m : List (Nat × Nat)) (k : Nat) : Option Nat :=
  match m with
  | [] => none
  | (a, v) :: r => if a = k then some v else mapFind r k

/-- `m[k] = v` (overwriting insert, keeps keys unique). -/
def mapInsert (m : List (Nat × Nat)) (k v : Nat) : List (Nat × Nat) :=
  (k, v) :: m.filter (fun kv => kv.1 ≠ k)

/-- `m.try_emplace(k, v)`: insert only when the key is absent. -/
def mapTryEmplace (m : List (Nat × Nat)) (k v : Nat) : List (Nat × Nat) :=
  if (mapFind m k).isSome then m else (k, v) :: m

/-- `m.erase(k)`. -/
def mapErase (m : List (Nat × Nat)) (k : Nat) : List (Nat × Nat) :=
  m.filter (fun kv => kv.1 ≠ k)

/-- Largest element of a list of naturals, if any. -/
def listMax : List Nat → Option Nat
  | [] => none
  | x :: xs =>
    match listMax xs with
    | none => some x
    | some y => some (max x y)

/-! ### The compressed suffix array

The CSA adapter contract (`size`, `sigma`, `C`, `char2comp`, `comp2char`,
`sa`, `isa`, `text`, wavelet-tree `interval_symbols`) is realised directly
from its mathematical definition over the input byte string: the CSA itself
is an external library (sdsl) and is specified only by this interface.
The construction appends the sentinel byte `0` to the input. -/

/-- The indexed text: the input bytes followed by the sentinel `0`. -/
def textOf (T : List Nat) : List Nat := T ++ [0]

/-- `csa.size()`: text size including the sentinel. -/
def nOf (T : List Nat) : Nat := (textOf T).length

/-- A well-formed input: non-empty, bytes in `[1, 255]` (the sentinel `0`
is reserved for the CSA construction). -/
def wfInput (T : List Nat) : Prop := T ≠ [] ∧ ∀ b ∈ T, 0 < b ∧ b < 256

instance (T : List Nat) : Decidable (wfInput T) := by
  unfold wfInput; infer_instance

/-- The suffix of the text starting at position `i`. -/
def sufAt (T : List Nat) (i : Nat) : List Nat := (textOf T).drop i

/-- Strict lexicographic order on byte lists. -/
def lexLt : List Nat → List Nat → Bool
  | [], [] => false
  | [], _ :: _ => true
  | _ :: _, [] => false
  | x :: xs, y :: ys => if x < y then true else if y < x then false else lexLt xs ys

/-- Insert into a list sorted by `lt`. -/
def insSorted (lt : Nat → Nat → Bool) (x : Nat) : List Nat → List Nat
  | [] => [x]
  | y :: ys => if lt x y then x :: y :: ys else y :: insSorted lt x ys

/-- Insertion sort by `lt`. -/
def insSort (lt : Nat → Nat → Bool) : List Nat → List Nat
  | [] => []
  | x :: xs => insSorted lt x (insSort lt xs)

/-- `csa.sa`: the positions `0, …, n-1` sorted by their suffixes. -/
def saOf (T : List Nat) : List Nat :=
  insSort (fun i j => lexLt (sufAt T i) (sufAt T j)) (List.range (nOf T))

/-- `sa[i]`. -/
def saAt (T : List Nat) (i : Nat) : Nat := (saOf T).getD i 0

/-- Index of the first occurrence of `x` in `l` (length of `l` if absent). -/
def posIn (l : List Nat) (x : Nat) : Nat :=
  match l with
  | [] => 0
  | y :: ys => if y = x then 0 else posIn ys x + 1

/-- `csa.isa[i]`: the suffix-array rank of position `i`. -/
def isaAt (T : List Nat) (i : Nat) : Nat := posIn (saOf T) i

/-- `csa.text[i]`. -/
def textAt (T : List Nat) (i : Nat) : Nat := (textOf T).getD i 0

/-- The compact alphabet: the distinct bytes occurring in the text, sorted. -/
def alphaOf (T : List Nat) : List Nat :=
  (List.range 256).filter (fun c => (textOf T).contains c)

/-- `csa.sigma`: number of distinct bytes (including the sentinel). -/
def sigmaOf (T : List Nat) : Nat := (alphaOf T).length

/-- `csa.char2comp[c]`: rank of the byte `c` in the compact alphabet. -/
def char2comp (T : List Nat) (c : Nat) : Nat :=
  (alphaOf T).countP (fun x => decide (x < c))

/-- `csa.comp2char[k]`: byte for the compact alphabet index `k`. -/
def comp2char (T : List Nat) (k : Nat) : Nat := (alphaOf T).getD k 0

/-- `csa.C[k]`: number of text symbols with compact index `< k`. -/
def cArr (T : List Nat) (k : Nat) : Nat :=
  (((alphaOf T).take k).map (fun c => (textOf T).count c)).sum

/-- The Burrows–Wheeler transform: symbol preceding the suffix of
rank `i` (cyclically). -/
def bwtAt (T : List Nat) (i : Nat) : Nat :=
  textAt T ((saAt T i + nOf T - 1) % nOf T)

/-- The BWT slice `[lb, rb)`. -/
def bwtRange (T : List Nat) (lb rb : Nat) : List Nat :=
  (List.range' lb (rb - lb)).map (bwtAt T)

/-- Number of occurrences of the symbol `c` in `BWT[0, i)`
(wavelet-tree rank). -/
def rankSym (T : List Nat) (c : Nat) (i : Nat) : Nat :=
  (bwtRange T 0 i).count c

/-- The distinct symbols of a list, first occurrences kept in order. -/
def uniqueSyms : List Nat → List Nat
  | [] => []
  | x :: xs => x :: (uniqueSyms xs).filter (fun y => y ≠ x)

/-! ### The LCP-interval enumerator (lcp.hpp)

`lcp_interval_generator` is a coroutine; it is embedded as a fuel-indexed
state machine whose state holds exactly the coroutine's local variables
(per-symbol queues, `finished` bit vector, `last_idx`, `last_lb`,
`loc_max`, the extension set), and which returns the list of yielded
values.  Each yield carries the shared output slots
`interval = {lcp, lb, rb}`, `loc_max` and the yielded extension count. -/

structure Emission where
  lcp : Nat
  lb : Nat
  rb : Nat
  ext : Nat
  locMax : Bool
deriving Repr, DecidableEq

structure GenState where
  queues : List (List (Nat × Nat))
  finished : List Bool
  lastIdx : Nat
  lastLb : Nat
  locMax : Bool
  exts : List Nat
deriving Repr

/-- `extensions.insert(c)` on the extension set. -/
def insertSym (l : List Nat) (c : Nat) : List Nat :=
  if l.contains c then l else l ++ [c]

/-- Push the child interval of each non-sentinel extension symbol onto
that symbol's queue (`queues[char2comp[c]].push(C[k]+rank_lb, C[k]+rank_rb)`). -/
def pushChildren (T : List Nat) (st : GenState) (syms : List Nat) (lb rb : Nat) :
    GenState :=
  syms.foldl
    (fun s c =>
      if c = 0 then s
      else
        let k := char2comp T c
        let l := cArr T k + rankSym T c lb
        let r := cArr T k + rankSym T c rb
        { s with queues := s.queues.set k (s.queues.getD k [] ++ [(l, r)]) })
    st

/-- The body of the generator's inner loop for one queued interval
`[lb, rb)`. -/
def processEntry (T : List Nat) (lcp : Nat) (st : GenState) (lb rb : Nat) :
    GenState × Option Emission :=
  if !(st.finished.getD rb false) || st.lastIdx = lb then
    let syms := uniqueSyms (bwtRange T lb rb)
    let st1 := { st with exts := syms.foldl insertSym st.exts }
    let st2 := pushChildren T st1 syms lb rb
    if !(st2.finished.getD rb false) then
      ({ st2 with
          finished := st2.finished.set rb true
          lastLb := if st2.lastIdx ≠ lb then lb else st2.lastLb
          lastIdx := rb }, none)
    else
      let lm := if lb ≠ rb - 1 then false else st2.locMax
      let em : Emission := ⟨lcp, st2.lastLb, rb - 1, st2.exts.length, lm⟩
      ({ st2 with exts := [], lastLb := 0, lastIdx := 0, locMax := true }, some em)
  else (st, none)

/-- Process `cnt` entries from queue `k` (the snapshot taken before the
round started). -/
def processQueue (T : List Nat) (lcp k : Nat) :
    Nat → GenState → GenState × List Emission
  | 0, st => (st, [])
  | cnt + 1, st =>
    match st.queues.getD k [] with
    | [] => (st, [])
    | (lb, rb) :: rest =>
      let st1 := { st with queues := st.queues.set k rest }
      let (st2, em) := processEntry T lcp st1 lb rb
      let (st3, ems) := processQueue T lcp k cnt st2
      (st3, em.toList ++ ems)

/-- One iteration of the outer `while` loop: snapshot the queue sizes,
then drain that many entries from each queue in alphabetical order. -/
def processRound (T : List Nat) (lcp : Nat) (st : GenState) :
    GenState × List Emission :=
  let sizes := st.queues.map List.length
  (List.range (sigmaOf T)).foldl
    (fun acc k =>
      let (st2, ems2) := processQueue T lcp k (sizes.getD k 0) acc.1
      (st2, acc.2 ++ ems2))
    (st, [])

/-- Total number of queued intervals (the C++ `intervals` counter). -/
def totalEntries (st : GenState) : Nat := (st.queues.map List.length).sum

/-- Run the generator: one round per LCP value while intervals remain. -/
def genRun (T : List Nat) : Nat → Nat → GenState → List Emission
  | 0, _, _ => []
  | fuel + 1, lcp, st =>
    if totalEntries st = 0 then []
    else
      let (st2, ems) := processRound T lcp st
      ems ++ genRun T fuel (lcp + 1) st2

/-- The generator's initial state: per-symbol queues seeded with
`[C[i], C[i+1])`, `finished[0] = finished[n] = 1`. -/
def genInit (T : List Nat) : GenState :=
  { queues := (List.range (sigmaOf T)).map (fun k => [(cArr T k, cArr T (k + 1))])
    finished := (List.range (nOf T + 1)).map (fun i => i = 0 || i = nOf T)
    lastIdx := 0
    lastLb := 0
    locMax := true
    exts := [] }

/-- Generous fuel: the maximal LCP value of a text of size `n` is below
`n`, so `n + 2` rounds drain every queue. -/
def genFuel (T : List Nat) : Nat := 2 * nOf T + 4

/-- All values yielded by `lcp_interval_generator`, in order. -/
def emissionsOf (T : List Nat) : List Emission :=
  genRun T (genFuel T) 0 (genInit T)

/-! ### The interval-ID assigner (identifier.hpp) -/

/-- State of `OnlineLcpIdentifiers`: the next free id `_id` and the
position-to-id map `_repeat_ids`. -/
structure IdState where
  counter : Nat
  repeatIds : List (Nat × Nat)
deriving Repr

/-- Constructor: the first `sigma` ids are reserved for the alphabet. -/
def idInit (T : List Nat) : IdState := { counter := sigmaOf T, repeatIds := [] }

/-- `getNextId()`. -/
def getNextId (st : IdState) : Nat := st.counter

/-- `getId(value, begin, end)`: allocate (if needed) and return the id of
the key `sa[begin] + value`. -/
def getId (T : List Nat) (st : IdState) (value lb _rb : Nat) : IdState × Nat :=
  let key := saAt T lb + value
  match mapFind st.repeatIds key with
  | some v => (st, v)
  | none =>
    ({ counter := st.counter + 1
       repeatIds := mapInsert st.repeatIds key st.counter }, st.counter)

/-- `removeId(value, begin, end)`: forget the mapping of `sa[begin] + value`. -/
def removeId (T : List Nat) (st : IdState) (value lb _rb : Nat) : IdState :=
  { st with repeatIds := mapErase st.repeatIds (saAt T lb + value) }

/-! ### The ONLINE stabber (interval.hpp, `OnlineNestedIntervalStabber`)

The `std::map<uint64_t, element_type>` is modelled as a key-unique
association list; `stab`'s `lower_bound` walk returns the value stored at
the greatest key `≤ p`.  The placeholder value
`std::numeric_limits<element_type>::max()` is `SENTINEL`. -/

def SENTINEL : Nat := 2 ^ 64 - 1

/-- Greatest key of `m` that is `≤ p`. -/
def maxKeyLE (m : List (Nat × Nat)) (p : Nat) : Option Nat :=
  listMax ((m.map Prod.fst).filter (fun k => decide (k ≤ p)))

/-- `OnlineNestedIntervalStabber::stab`. -/
def onlineStab (m : List (Nat × Nat)) (p : Nat) : Option Nat :=
  match maxKeyLE m p with
  | none => none
  | some k =>
    match mapFind m k with
    | none => none
    | some v => if v = SENTINEL then none else some v

/-- `OnlineNestedIntervalStabber::update`. -/
def onlineUpdate (m : List (Nat × Nat)) (b e id : Nat) : List (Nat × Nat) :=
  let m1 := match onlineStab m b with
    | none => mapTryEmplace m (e + 1) SENTINEL
    | some pid => mapTryEmplace m (e + 1) pid
  mapInsert m1 b id

/-! ### The FAST stabber (interval.hpp, `FastNestedIntervalStabber`)

The roaring bitmap of boundary positions is a duplicate-free list;
`rank(i)` then `select(rank-1)` select the greatest set bit `≤ i`. -/

structure FastS where
  bits : List Nat
  lookup : List (Nat × Nat)
deriving Repr

/-- `FastNestedIntervalStabber::stab`. -/
def fastStab (s : FastS) (p : Nat) : Option Nat :=
  match listMax (s.bits.filter (fun j => decide (j ≤ p))) with
  | none => none
  | some j => mapFind s.lookup j

/-- `FastNestedIntervalStabber::update`. -/
def fastUpdate (s : FastS) (b e id : Nat) : FastS :=
  let parent := fastStab s b
  let s1 :=
    if s.bits.contains (e + 1) then s
    else
      { bits := (e + 1) :: s.bits
        lookup := match parent with
          | none => s.lookup
          | some pid => mapInsert s.lookup (e + 1) pid }
  { bits := if s1.bits.contains b then s1.bits else b :: s1.bits
    lookup := mapInsert s1.lookup b id }

/-! ### The OPTIMAL stabber (interval.hpp, `OptimalNestedIntervalStabber`)

Compressed 64-bit roaring bitmaps (the binary interval ids) are
duplicate-free lists of bit indices; `minimum()` of an empty bitmap is
the all-ones 64-bit value, modelled by `SENTINEL`. -/

/-- Generic association list lookup. -/
def alFind {α : Type} (m : List (Nat × α)) (k : Nat) : Option α :=
  match m with
  | [] => none
  | (a, v) :: r => if a = k then some v else alFind r k

/-- Generic association list overwrite. -/
def alInsert {α : Type} (m : List (Nat × α)) (k : Nat) (v : α) : List (Nat × α) :=
  (k, v) :: m.filter (fun kv => kv.1 ≠ k)

/-- Generic association list erase. -/
def alErase {α : Type} (m : List (Nat × α)) (k : Nat) : List (Nat × α) :=
  m.filter (fun kv => kv.1 ≠ k)

/-- Bitmap intersection. -/
def setInter (a b : List Nat) : List Nat := a.filter (fun x => b.contains x)

/-- Bitmap union. -/
def setUnion (a b : List Nat) : List Nat := a ++ b.filter (fun x => !a.contains x)

/-- Smallest element of a list of naturals, if any. -/
def listMin : List Nat → Option Nat
  | [] => none
  | x :: xs =>
    match listMin xs with
    | none => some x
    | some y => some (Nat.min x y)

/-- `Roaring64Map::minimum()`: all-ones on an empty bitmap. -/
def roaringMin (l : List Nat) : Nat := (listMin l).getD SENTINEL

structure OptS where
  posBits : List Bool
  lookup : List (Nat × List Nat)
  updated : List Nat
  idMap : List (Nat × Nat)
deriving Repr

/-- The `while (!end_stack.empty())` pop loop at walk position `i`:
pop ends equal to `i`, recording the parent id under `i+1` while more
than the update id remains on the stack. -/
def optPops (i : Nat) :
    List Nat → List (List Nat) → List (Nat × List Nat) →
    List Nat × List (List Nat) × List (Nat × List Nat)
  | [], ids, lk => ([], ids, lk)
  | e :: es, ids, lk =>
    if e = i then
      let ids1 := ids.tail
      let lk1 := if 1 < ids1.length then alInsert lk (i + 1) (ids1.headD []) else lk
      optPops i es ids1 lk1
    else (e :: es, ids, lk)

/-- The per-begin-position id generation: push each binned end, derive the
child binary id from the stack top, then record the deepest id under `i`. -/
def optBegins (i : Nat) (bin : List Nat) :
    List Nat → List (List Nat) → Nat → List (Nat × List Nat) →
    List Nat × List (List Nat) × Nat × List (Nat × List Nat) :=
  fun es ids ctr lk =>
    match bin with
    | [] => (es, ids, ctr, lk)
    | e :: rest =>
      let newId := setUnion (ids.headD []) [ctr]
      optBegins i rest (e :: es) (newId :: ids) (ctr - 1) lk

/-- One iteration of the dovetail walk at position `i`. -/
def optWalkStep (bins : List (Nat × List Nat)) (i : Nat)
    (es : List Nat) (ids : List (List Nat)) (ctr : Nat)
    (lk : List (Nat × List Nat)) :
    List Nat × List (List Nat) × Nat × List (Nat × List Nat) :=
  let (es1, ids1, lk1) := optPops i es ids lk
  match alFind bins i with
  | none => (es1, ids1, ctr, lk1)
  | some bin =>
    let (es2, ids2, ctr2, lk2) := optBegins i bin es1 ids1 ctr lk1
    (es2, ids2, ctr2, alInsert lk2 i (ids2.headD []))

/-- The full dovetail walk over positions `0, …, cnt-1`. -/
def optWalk (bins : List (Nat × List Nat)) :
    Nat → Nat →
    List Nat → List (List Nat) → Nat → List (Nat × List Nat) →
    List (Nat × List Nat)
  | _, 0, _, _, _, lk => lk
  | i, cnt + 1, es, ids, ctr, lk =>
    let (es1, ids1, ctr1, lk1) := optWalkStep bins i es ids ctr lk
    optWalk bins (i + 1) cnt es1 ids1 ctr1 lk1

/-- `OptimalNestedIntervalStabber::initialize`: first pass sets the
begin/end+1 position bits and bins the maximal intervals by begin
position; the walk then assigns ancestor-closed binary ids. -/
def optInit (T : List Nat) : OptS :=
  let n := nOf T
  let ems := (emissionsOf T).drop 1
  let maximal := ems.filter (fun e => decide (1 < e.ext))
  let posBits :=
    maximal.foldl
      (fun bits e =>
        let bits1 := bits.set e.lb true
        if e.rb + 1 < n then bits1.set (e.rb + 1) true else bits1)
      (List.replicate n false)
  let bins :=
    maximal.foldl
      (fun bs e => alInsert bs e.lb ((alFind bs e.lb).getD [] ++ [e.rb]))
      ([] : List (Nat × List Nat))
  let numRepeats := maximal.length
  let lk := optWalk bins 0 (n - 1) [] [[]] (numRepeats - 1) []
  { posBits := posBits, lookup := lk, updated := [], idMap := [] }

/-- `rank(i)`: number of set bits in `[0, i)` (SDSL rank is exclusive). -/
def rankBits (bits : List Bool) (i : Nat) : Nat := (bits.take i).count true

/-- `select(k)`: position of the `k`-th set bit, 1-based. -/
def selectBit : List Bool → Nat → Nat
  | [], _ => 0
  | b :: bs, k =>
    if b then (if k = 1 then 0 else selectBit bs (k - 1) + 1)
    else selectBit bs k + 1

/-- `OptimalNestedIntervalStabber::_stab`: binary id of the deepest
indexed interval containing `i`. -/
def optStabBin (s : OptS) (i : Nat) : Option (List Nat) :=
  let r := rankBits s.posBits (i + 1)
  if r = 0 then none
  else alFind s.lookup (selectBit s.posBits r)

/-- `OptimalNestedIntervalStabber::stab`. -/
def optStab (s : OptS) (i : Nat) : Option Nat :=
  match optStabBin s i with
  | none => none
  | some bid => alFind s.idMap (roaringMin (setInter s.updated bid))

/-- `OptimalNestedIntervalStabber::update`. -/
def optUpdate (s : OptS) (b e id : Nat) : OptS :=
  let bi := (optStabBin s b).getD []
  let ei := (optStabBin s e).getD []
  let ii := setInter bi ei
  { s with
      idMap := alInsert s.idMap (roaringMin ii) id
      updated := setUnion s.updated ii }

/-! ### The grammar builder (cfg.hpp) -/

inductive Alg | OPTIMAL | ONLINE | FAST
deriving Repr, DecidableEq

/-- The stabber chosen for the run (`NestedIntervalStabber*`). -/
inductive Stb
  | online (m : List (Nat × Nat))
  | fast (s : FastS)
  | opt (s : OptS)
deriving Repr

def stbStab : Stb → Nat → Option Nat
  | .online m, p => onlineStab m p
  | .fast s, p => fastStab s p
  | .opt s, p => optStab s p

def stbUpdate : Stb → Nat → Nat → Nat → Stb
  | .online m, b, e, id => .online (onlineUpdate m b e id)
  | .fast s, b, e, id => .fast (fastUpdate s b e id)
  | .opt s, b, e, id => .opt (optUpdate s b e id)

def stbInit (T : List Nat) : Alg → Stb
  | .OPTIMAL => .opt (optInit T)
  | .ONLINE => .online []
  | .FAST => .fast ⟨[], []⟩

/-- `computeProduction(csa, intervals, rule_production_sizes, cfg, i, n)`;
fuel-indexed (each iteration advances `i` by at least one in every run the
C++ terminates on). -/
def computeProduction (T : List Nat) (stb : Stb) (sizes : List (Nat × Nat)) :
    Nat → Nat → Nat → List Nat
  | 0, _, _ => []
  | fuel + 1, i, nn =>
    if i < nn then
      match stbStab stb (isaAt T i) with
      | none => char2comp T (textAt T i) :: computeProduction T stb sizes fuel (i + 1) nn
      | some rid =>
        rid :: computeProduction T stb sizes fuel (i + (mapFind sizes rid).getD 0) nn
    else []

/-- The builder's per-emission state. -/
structure BuildState where
  cfg : List (Nat × List Nat)
  sizes : List (Nat × Nat)
  ids : IdState
  stb : Stb

/-- The id the current loop iteration works with
(`repeat_id = repeat_ids.getId(...)`). -/
def stepRid (T : List Nat) (st : BuildState) (em : Emission) : Nat :=
  (getId T st.ids em.lcp em.lb em.rb).2

/-- `rule_production_sizes` after the occurrence-count increment of the
current iteration. -/
def stepSizes (T : List Nat) (st : BuildState) (em : Emission) :
    List (Nat × Nat) :=
  let rid := stepRid T st em
  let sizes1 :=
    if (mapFind st.sizes rid).isSome then st.sizes else mapInsert st.sizes rid 0
  mapInsert sizes1 rid ((mapFind sizes1 rid).getD 0 + 1)

/-- The production synthesized for a maximal interval in the current
iteration. -/
def stepProd (T : List Nat) (st : BuildState) (em : Emission) : List Nat :=
  let rid := stepRid T st em
  let i := saAt T em.lb
  let nn := i + (mapFind (stepSizes T st em) rid).getD 0
  computeProduction T st.stb (stepSizes T st em) (nn + 1) i nn

def buildStep (T : List Nat) (st : BuildState) (em : Emission) : BuildState :=
  if 1 < em.ext then
    if 1 < (stepProd T st em).length then
      { cfg := alInsert st.cfg (stepRid T st em) (stepProd T st em)
        sizes := stepSizes T st em
        ids := removeId T (getId T st.ids em.lcp em.lb em.rb).1 em.lcp em.lb em.rb
        stb := stbUpdate st.stb em.lb em.rb (stepRid T st em) }
    else
      { cfg := alErase (alInsert st.cfg (stepRid T st em) (stepProd T st em))
          (stepRid T st em)
        sizes := mapErase (stepSizes T st em) (stepRid T st em)
        ids := removeId T (getId T st.ids em.lcp em.lb em.rb).1 em.lcp em.lb em.rb
        stb := st.stb }
  else
    { st with
        sizes := stepSizes T st em
        ids := (getId T st.ids em.lcp em.lb em.rb).1 }

/-- The builder's initial state: terminal sizes set to 1, empty grammar,
fresh id assigner, fresh stabber. -/
def buildInit (T : List Nat) (alg : Alg) : BuildState :=
  { cfg := []
    sizes := ((List.range (sigmaOf T)).map (fun i => (i, 1))).reverse
    ids := idInit T
    stb := stbInit T alg }

/-- The builder's state after the first `k` iterations of the emission
loop of `csaToCfg`. -/
def buildStateAt (T : List Nat) (alg : Alg) (k : Nat) : BuildState :=
  ((((emissionsOf T).drop 1).take k).foldl (buildStep T)) (buildInit T alg)

def csaToCfg (T : List Nat) (alg : Alg) : List (Nat × List Nat) × Nat :=
  let st := ((emissionsOf T).drop 1).foldl (buildStep T) (buildInit T alg)
  let start := getNextId st.ids
  let prod := computeProduction T st.stb st.sizes (nOf T + 1) 0 (nOf T)
  (alInsert st.cfg start prod, start)

/-- The builder state after the whole emission loop of `csaToCfg`. -/
def buildFinal (T : List Nat) (alg : Alg) : BuildState :=
  ((emissionsOf T).drop 1).foldl (buildStep T) (buildInit T alg)


/-- `printCfg`: the byte stream the verification pass writes to standard
error (terminal 0, the sentinel, is skipped). -/
def printCfgOut (T : List Nat) (cfg : List (Nat × List Nat)) :
    Nat → Nat → List Nat
  | 0, _ => []
  | fuel + 1, rule =>
    if rule < sigmaOf T then
      if 0 < rule then [comp2char T rule] else []
    else
      ((alFind cfg rule).getD []).foldl
        (fun acc r => acc ++ printCfgOut T cfg fuel r) []

/-- Full expansion of a rule to terminal ids (no sentinel skipping). -/
def expandSyms (T : List Nat) (cfg : List (Nat × List Nat)) :
    Nat → Nat → List Nat
  | 0, _ => []
  | fuel + 1, rule =>
    if rule < sigmaOf T then [rule]
    else
      ((alFind cfg rule).getD []).foldl
        (fun acc r => acc ++ expandSyms T cfg fuel r) []

/-- `main`'s exit code as a function of the argument count and the parsed
algorithm selector (`none` models a string other than OPTIMAL, ONLINE,
FAST): either usage check returns `1`, and a completed run ends with
`return 1` as well. -/
def mainExitCode (argc : Nat) (selector : Option Alg) : Nat :=
  if argc < 3 then 1
  else if selector.isNone then 1
  else 1

/-! ### Interval update sequences -/

structure IEntry where
  b : Nat
  e : Nat
  id : Nat
deriving DecidableEq, Repr

/-- `p` lies in the closed interval `[v.b, v.e]`. -/
def containsB (v : IEntry) (p : Nat) : Bool := v.b ≤ p && p ≤ v.e

/-- The two intervals are disjoint. -/
def entDisj (u v : IEntry) : Bool := u.e < v.b || v.e < u.b

/-- `inner` is strictly nested inside `outer`. -/
def entStrictIn (inner outer : IEntry) : Bool :=
  outer.b ≤ inner.b && inner.e ≤ outer.e &&
    (decide (outer.b ≠ inner.b) || decide (inner.e ≠ outer.e))

/-- The claim's written precondition: each new interval is disjoint from
all previously updated intervals, or strictly nested within (at least)
one of them. -/
def claimPreAux : List IEntry → List IEntry → Bool
  | _, [] => true
  | prev, v :: rest =>
    (prev.all (fun w => entDisj w v) || prev.any (fun w => entStrictIn v w)) &&
      claimPreAux (prev ++ [v]) rest

def claimPre (F : List IEntry) : Bool := claimPreAux [] F

/-- Pairwise legality in update order: every later interval is disjoint
from, or strictly nested inside, each earlier one. -/
def nestedSeq : List IEntry → Bool
  | [] => true
  | v :: rest => rest.all (fun w => entDisj v w || entStrictIn w v) && nestedSeq rest

/-- Well-formed update sequence: genuine intervals with ids below the
ONLINE sentinel, pairwise nested in update order. -/
def wfSeq (F : List IEntry) : Bool :=
  F.all (fun v => v.b ≤ v.e && decide (v.id < SENTINEL)) && nestedSeq F

def onlineOfUpdates (F : List IEntry) : List (Nat × Nat) :=
  F.foldl (fun m v => onlineUpdate m v.b v.e v.id) []

def fastOfUpdates (F : List IEntry) : FastS :=
  F.foldl (fun s v => fastUpdate s v.b v.e v.id) ⟨[], []⟩

/-- The deepest updated interval containing `p`: under `wfSeq` it is the
last one in update order. -/
def deepest (F : List IEntry) (p : Nat) : Option IEntry :=
  (F.filter (fun v => containsB v p)).getLast?

def deepestId (F : List IEntry) (p : Nat) : Option Nat :=
  (deepest F p).map IEntry.id

/-- `k` is a begin or end+1 position of some updated interval. -/
def isBound (F : List IEntry) (k : Nat) : Bool :=
  F.any (fun v => v.b == k || v.e + 1 == k)

def encOpt : Option Nat → Nat
  | none => SENTINEL
  | some v => v

/-- Invariant tying the ONLINE map to the update sequence: its keys are
exactly the interval bounds, and each key stores the deepest interval
covering that key (sentinel when none). -/
def INV (m : List (Nat × Nat)) (F : List IEntry) : Prop :=
  (∀ k, (mapFind m k).isSome ↔ isBound F k = true) ∧
  (∀ k, isBound F k = true → mapFind m k = some (encOpt (deepestId F k)))

/-! ### Basic lemmas -/

theorem mapFind_isSome_iff_memKeys (m : List (Nat × Nat)) (k : Nat) :
    (mapFind m k).isSome ↔ k ∈ m.map Prod.fst := by
  induction m with
  | nil => simp [mapFind]
  | cons kv r ih =>
    obtain ⟨a, v⟩ := kv
    simp only [mapFind, List.map_cons, List.mem_cons]
    by_cases h : a = k
    · simp [h]
    · simp only [if_neg h, ih]
      constructor
      · exact Or.inr
      · rintro (h' | h')
        · exact absurd h'.symm h
        · exact h'

theorem listMax_spec (l : List Nat) (x : Nat) (h : listMax l = some x) :
    x ∈ l ∧ ∀ y ∈ l, y ≤ x := by
  induction l generalizing x with
  | nil => simp [listMax] at h
  | cons a t ih =>
    simp only [listMax] at h
    cases ht : listMax t with
    | none =>
      rw [ht] at h
      simp only [Option.some.injEq] at h
      subst h
      have : t = [] := by
        cases t with
        | nil => rfl
        | cons b u => simp [listMax] at ht; cases hu : listMax u <;> rw [hu] at ht <;> simp at ht
      subst this
      simp
    | some y =>
      rw [ht] at h
      simp only [Option.some.injEq] at h
      obtain ⟨hy, hall⟩ := ih y ht
      subst h
      refine ⟨?_, ?_⟩
      · rw [Nat.max_def]
        split
        · exact List.mem_cons_of_mem _ hy
        · simp
      · intro z hz
        rcases List.mem_cons.1 hz with rfl | hz'
        · exact Nat.le_max_left _ _
        · exact le_trans (hall z hz') (Nat.le_max_right _ _)

theorem listMax_eq_none (l : List Nat) : listMax l = none ↔ l = [] := by
  cases l with
  | nil => simp [listMax]
  | cons a t =>
    simp only [listMax]
    cases ht : listMax t <;> simp

theorem listMax_isSome_of_mem {l : List Nat} {x : Nat} (h : x ∈ l) :
    (listMax l).isSome := by
  cases hl : listMax l with
  | none => rw [listMax_eq_none] at hl; subst hl; simp at h
  | some y => simp

/-- `listMax` depends only on the set of elements. -/
theorem listMax_eq_of_mem_iff {l1 l2 : List Nat} (h : ∀ x, x ∈ l1 ↔ x ∈ l2) :
    listMax l1 = listMax l2 := by
  cases h1 : listMax l1 with
  | none =>
    rw [listMax_eq_none] at h1
    subst h1
    cases h2 : listMax l2 with
    | none => rfl
    | some y =>
      obtain ⟨hy, _⟩ := listMax_spec _ _ h2
      rw [← h] at hy
      simp at hy
  | some x =>
    obtain ⟨hx, hall1⟩ := listMax_spec _ _ h1
    cases h2 : listMax l2 with
    | none =>
      rw [listMax_eq_none] at h2
      subst h2
      rw [h] at hx
      simp at hx
    | some y =>
      obtain ⟨hy, hall2⟩ := listMax_spec _ _ h2
      have hxy : x ≤ y := hall2 x ((h x).1 hx)
      have hyx : y ≤ x := hall1 y ((h y).2 hy)
      rw [Nat.le_antisymm hxy hyx]

theorem maxKeyLE_spec (m : List (Nat × Nat)) (p k : Nat)
    (h : maxKeyLE m p = some k) :
    k ∈ m.map Prod.fst ∧ k ≤ p ∧ ∀ k' ∈ m.map Prod.fst, k' ≤ p → k' ≤ k := by
  obtain ⟨hmem, hall⟩ := listMax_spec _ _ h
  simp only [List.mem_filter, decide_eq_true_eq] at hmem
  refine ⟨hmem.1, hmem.2, fun k' hk' hle => ?_⟩
  exact hall k' (List.mem_filter.2 ⟨hk', by simpa using hle⟩)

theorem maxKeyLE_eq_none (m : List (Nat × Nat)) (p : Nat)
    (h : maxKeyLE m p = none) :
    ∀ k ∈ m.map Prod.fst, ¬(k ≤ p) := by
  intro k hk hle
  rw [maxKeyLE, listMax_eq_none] at h
  have : k ∈ ([] : List Nat) := by
    rw [← h]
    exact List.mem_filter.2 ⟨hk, by simpa using hle⟩
  simp at this

theorem mapFind_mapInsert_self (m : List (Nat × Nat)) (k v : Nat) :
    mapFind (mapInsert m k v) k = some v := by
  simp [mapInsert, mapFind]

theorem mapFind_filterOut (m : List (Nat × Nat)) (k k' : Nat) (h : k' ≠ k) :
    mapFind (m.filter (fun kv => kv.1 ≠ k)) k' = mapFind m k' := by
  induction m with
  | nil => simp
  | cons kv r ih =>
    obtain ⟨a, w⟩ := kv
    by_cases ha : a = k
    · subst ha
      rw [List.filter_cons_of_neg (by simp)]
      rw [ih]
      simp only [mapFind]
      rw [if_neg (fun hh : a = k' => h (hh ▸ rfl))]
    · rw [List.filter_cons_of_pos (by simpa using ha)]
      simp only [mapFind]
      by_cases hk' : a = k'
      · simp [hk']
      · simp only [if_neg hk']
        exact ih

theorem mapFind_mapInsert_ne (m : List (Nat × Nat)) (k v k' : Nat) (h : k' ≠ k) :
    mapFind (mapInsert m k v) k' = mapFind m k' := by
  simp only [mapInsert, mapFind]
  rw [if_neg (fun hh => h hh.symm)]
  exact mapFind_filterOut m k k' h

theorem mapFind_mapTryEmplace_present (m : List (Nat × Nat)) (k v : Nat)
    (h : (mapFind m k).isSome) : mapTryEmplace m k v = m := by
  simp [mapTryEmplace, h]

theorem mapFind_mapTryEmplace_absent_self (m : List (Nat × Nat)) (k v : Nat)
    (h : mapFind m k = none) : mapFind (mapTryEmplace m k v) k = some v := by
  simp [mapTryEmplace, h, mapFind]

theorem mapFind_mapTryEmplace_ne (m : List (Nat × Nat)) (k v k' : Nat)
    (h : k' ≠ k) : mapFind (mapTryEmplace m k v) k' = mapFind m k' := by
  simp only [mapTryEmplace]
  split
  · rfl
  · simp [mapFind, if_neg (fun hh : k = k' => h hh.symm)]

/-! ### The ONLINE invariant -/

theorem isBound_iff (F : List IEntry) (k : Nat) :
    isBound F k = true ↔ ∃ v ∈ F, v.b = k ∨ v.e + 1 = k := by
  simp [isBound, List.any_eq_true]

theorem isBound_of_b {F : List IEntry} {v : IEntry} (hv : v ∈ F) :
    isBound F v.b = true :=
  (isBound_iff F v.b).2 ⟨v, hv, Or.inl rfl⟩

theorem isBound_of_e {F : List IEntry} {v : IEntry} (hv : v ∈ F) :
    isBound F (v.e + 1) = true :=
  (isBound_iff F (v.e + 1)).2 ⟨v, hv, Or.inr rfl⟩

theorem containsB_iff (v : IEntry) (p : Nat) :
    containsB v p = true ↔ v.b ≤ p ∧ p ≤ v.e := by
  simp [containsB]

theorem bool_eq_of_iff {a b : Bool} (h : a = true ↔ b = true) : a = b := by
  cases a <;> cases b <;> simp_all

/-- If `k` is the greatest bound `≤ p`, positions `k` and `p` are covered
by the same updated intervals. -/
theorem contains_bound_equiv (F : List IEntry) (p k : Nat)
    (hkp : k ≤ p)
    (hmax : ∀ k', isBound F k' = true → k' ≤ p → k' ≤ k) :
    ∀ v ∈ F, containsB v k = containsB v p := by
  intro v hv
  apply bool_eq_of_iff
  rw [containsB_iff, containsB_iff]
  constructor
  · rintro ⟨h1, h2⟩
    refine ⟨le_trans h1 hkp, ?_⟩
    by_contra hpe
    have hep : v.e + 1 ≤ p := by omega
    have := hmax (v.e + 1) (isBound_of_e hv) hep
    omega
  · rintro ⟨h1, h2⟩
    exact ⟨hmax v.b (isBound_of_b hv) h1, le_trans hkp h2⟩

/-- Central stab lemma: from the invariant, `stab` answers the deepest
updated interval covering `p`. -/
theorem onlineStab_INV (m : List (Nat × Nat)) (F : List IEntry)
    (h : INV m F) (hid : ∀ v ∈ F, v.id < SENTINEL) (p : Nat) :
    onlineStab m p = deepestId F p := by
  unfold onlineStab
  cases hmk : maxKeyLE m p with
  | none =>
    have hnone := maxKeyLE_eq_none m p hmk
    have hfe : F.filter (fun v => containsB v p) = [] := by
      apply List.filter_eq_nil_iff.mpr
      intro v hv hc
      rw [containsB_iff] at hc
      have hbd : (mapFind m v.b).isSome := (h.1 v.b).2 (isBound_of_b hv)
      rw [mapFind_isSome_iff_memKeys] at hbd
      exact hnone v.b hbd hc.1
    simp [deepestId, deepest, hfe]
  | some k =>
    dsimp only
    obtain ⟨hkkeys, hkp, hmaxk⟩ := maxKeyLE_spec m p k hmk
    have hkb : isBound F k = true := by
      rw [← h.1 k, mapFind_isSome_iff_memKeys]
      exact hkkeys
    have hmaxb : ∀ k', isBound F k' = true → k' ≤ p → k' ≤ k := by
      intro k' hk' hle
      apply hmaxk k' _ hle
      rw [← mapFind_isSome_iff_memKeys]
      exact (h.1 k').2 hk'
    rw [h.2 k hkb]
    have hfeq : F.filter (fun v => containsB v k) = F.filter (fun v => containsB v p) := by
      apply List.filter_congr
      exact contains_bound_equiv F p k hkp hmaxb
    cases hd : deepestId F p with
    | none =>
      have : deepestId F k = none := by
        rw [deepestId, deepest, hfeq]
        exact hd
      rw [this]
      simp [encOpt]
    | some id =>
      have hdk : deepestId F k = some id := by
        rw [deepestId, deepest, hfeq]
        exact hd
      rw [hdk]
      simp only [encOpt]
      have hidlt : id < SENTINEL := by
        rw [deepestId] at hd
        cases hde : deepest F p with
        | none => rw [hde] at hd; simp at hd
        | some v =>
          rw [hde] at hd
          simp at hd
          have hvF : v ∈ F :=
            (List.mem_filter.1 (List.mem_of_mem_getLast? hde)).1
          exact hd ▸ hid v hvF
      rw [if_neg (by omega)]


theorem entDisj_iff (u v : IEntry) :
    entDisj u v = true ↔ u.e < v.b ∨ v.e < u.b := by
  simp [entDisj]

theorem entStrictIn_iff (i o : IEntry) :
    entStrictIn i o = true ↔
      o.b ≤ i.b ∧ i.e ≤ o.e ∧ (o.b ≠ i.b ∨ i.e ≠ o.e) := by
  simp [entStrictIn, and_assoc]

theorem isBound_append (F : List IEntry) (v : IEntry) (k : Nat) :
    isBound (F ++ [v]) k = (isBound F k || (v.b == k || v.e + 1 == k)) := by
  simp [isBound, List.any_append]

/-- No bound of the previous intervals lies strictly inside the new
interval. -/
theorem noBound_inside (F : List IEntry) (v : IEntry)
    (hwf : ∀ w ∈ F, w.b ≤ w.e)
    (hrel : ∀ w ∈ F, entDisj w v = true ∨ entStrictIn v w = true)
    (k : Nat) (h1 : v.b < k) (h2 : k ≤ v.e) : isBound F k = false := by
  by_contra hb
  rw [Bool.not_eq_false, isBound_iff] at hb
  obtain ⟨w, hw, hk⟩ := hb
  have hwe := hwf w hw
  rcases hrel w hw with hd | hs
  · rw [entDisj_iff] at hd
    rcases hk with hk | hk <;> omega
  · rw [entStrictIn_iff] at hs
    rcases hk with hk | hk <;> omega

theorem deepest_append_contains (F : List IEntry) (v : IEntry) (p : Nat)
    (hc : containsB v p = true) : deepest (F ++ [v]) p = some v := by
  unfold deepest
  rw [List.filter_append]
  simp [hc, List.getLast?_concat]

theorem deepest_append_not (F : List IEntry) (v : IEntry) (p : Nat)
    (hc : containsB v p = false) : deepest (F ++ [v]) p = deepest F p := by
  unfold deepest
  rw [List.filter_append]
  simp [hc]

theorem containsB_eplus_false (v : IEntry) : containsB v (v.e + 1) = false := by
  simp [containsB]

/-- When `v.e + 1` is not yet a bound, previous intervals cover `v.e + 1`
exactly when they cover `v.b`. -/
theorem contains_eplus_eq_b (F : List IEntry) (v : IEntry)
    (hwf : ∀ w ∈ F, w.b ≤ w.e) (hvwf : v.b ≤ v.e)
    (hrel : ∀ w ∈ F, entDisj w v = true ∨ entStrictIn v w = true)
    (hnb : isBound F (v.e + 1) = false) :
    ∀ w ∈ F, containsB w (v.e + 1) = containsB w v.b := by
  intro w hw
  have hwb := hwf w hw
  have hwnotb : w.b ≠ v.e + 1 := by
    intro hh
    rw [← Bool.not_eq_true] at hnb
    exact hnb (hh ▸ isBound_of_b hw)
  have hwnote : w.e ≠ v.e := by
    intro hh
    rw [← Bool.not_eq_true] at hnb
    exact hnb (by rw [← hh]; exact isBound_of_e hw)
  apply bool_eq_of_iff
  rw [containsB_iff, containsB_iff]
  constructor
  · rintro ⟨h1, h2⟩
    rcases hrel w hw with hd | hs
    · rw [entDisj_iff] at hd; omega
    · rw [entStrictIn_iff] at hs; omega
  · rintro ⟨h1, h2⟩
    rcases hrel w hw with hd | hs
    · rw [entDisj_iff] at hd; omega
    · rw [entStrictIn_iff] at hs; omega

theorem onlineUpdate_eq (m : List (Nat × Nat)) (b e id : Nat) :
    onlineUpdate m b e id =
      mapInsert (mapTryEmplace m (e + 1) (encOpt (onlineStab m b))) b id := by
  unfold onlineUpdate
  cases h : onlineStab m b <;> simp [encOpt]

/-- The invariant is preserved by a legal update. -/
theorem INV_update (m : List (Nat × Nat)) (F : List IEntry) (v : IEntry)
    (h : INV m F)
    (hwf : ∀ w ∈ F, w.b ≤ w.e) (hid : ∀ w ∈ F, w.id < SENTINEL)
    (hvwf : v.b ≤ v.e)
    (hrel : ∀ w ∈ F, entDisj w v = true ∨ entStrictIn v w = true) :
    INV (onlineUpdate m v.b v.e v.id) (F ++ [v]) := by
  have hstab : onlineStab m v.b = deepestId F v.b := onlineStab_INV m F h hid v.b
  rw [onlineUpdate_eq, hstab]
  have hbne : v.b ≠ v.e + 1 := by omega
  constructor
  · intro k
    by_cases hkb : k = v.b
    · subst hkb
      rw [mapFind_mapInsert_self]
      simp [isBound_append]
    · rw [mapFind_mapInsert_ne _ _ _ _ hkb]
      by_cases hke : k = v.e + 1
      · subst hke
        rw [isBound_append]
        simp only [beq_self_eq_true, Bool.or_true, iff_true]
        by_cases hp : (mapFind m (v.e + 1)).isSome
        · rw [mapFind_mapTryEmplace_present _ _ _ hp]
          exact hp
        · have : mapFind m (v.e + 1) = none := by
            cases hmm : mapFind m (v.e + 1)
            · rfl
            · rw [hmm] at hp; simp at hp
          rw [mapFind_mapTryEmplace_absent_self _ _ _ this]
          simp
      · rw [mapFind_mapTryEmplace_ne _ _ _ _ hke]
        rw [h.1 k, isBound_append]
        have h1 : (v.b == k) = false := by
          simp
          exact fun hh => hkb hh.symm
        have h2 : (v.e + 1 == k) = false := by
          simp
          exact fun hh => hke hh.symm
        rw [h1, h2]
        simp
  · intro k hkbd
    by_cases hkb : k = v.b
    · subst hkb
      rw [mapFind_mapInsert_self]
      have hc : containsB v v.b = true := by
        rw [containsB_iff]; omega
      rw [deepestId, deepest_append_contains F v v.b hc]
      rfl
    · rw [mapFind_mapInsert_ne _ _ _ _ hkb]
      by_cases hke : k = v.e + 1
      · subst hke
        have hd1 : deepestId (F ++ [v]) (v.e + 1) = deepestId F (v.e + 1) := by
          unfold deepestId
          rw [deepest_append_not F v (v.e + 1) (containsB_eplus_false v)]
        rw [hd1]
        by_cases hp : (mapFind m (v.e + 1)).isSome
        · rw [mapFind_mapTryEmplace_present _ _ _ hp]
          have hb : isBound F (v.e + 1) = true := (h.1 _).1 hp
          rw [h.2 _ hb]
        · have hnone : mapFind m (v.e + 1) = none := by
            cases hmm : mapFind m (v.e + 1)
            · rfl
            · rw [hmm] at hp; simp at hp
          have hnb : isBound F (v.e + 1) = false := by
            cases hbb : isBound F (v.e + 1)
            · rfl
            · exact absurd ((h.1 _).2 hbb) hp
          rw [mapFind_mapTryEmplace_absent_self _ _ _ hnone]
          have heq : deepest F (v.e + 1) = deepest F v.b := by
            unfold deepest
            congr 1
            exact List.filter_congr (contains_eplus_eq_b F v hwf hvwf hrel hnb)
          show some (encOpt (Option.map IEntry.id (deepest F v.b))) =
            some (encOpt (Option.map IEntry.id (deepest F (v.e + 1))))
          rw [heq]
      · rw [mapFind_mapTryEmplace_ne _ _ _ _ hke]
        have hbF : isBound F k = true := by
          rw [isBound_append] at hkbd
          have h1 : (v.b == k) = false := by
            simp
            exact fun hh => hkb hh.symm
          have h2 : (v.e + 1 == k) = false := by
            simp
            exact fun hh => hke hh.symm
          rw [h1, h2] at hkbd
          simpa using hkbd
        have hcv : containsB v k = false := by
          cases hcc : containsB v k
          · rfl
          · exfalso
            rw [containsB_iff] at hcc
            have hlt : v.b < k := by
              rcases Nat.lt_or_ge v.b k with hh | hh
              · exact hh
              · omega
            have := noBound_inside F v hwf hrel k hlt hcc.2
            rw [this] at hbF
            simp at hbF
        rw [deepestId, deepest_append_not F v k hcv, h.2 k hbF]
        rfl

/-! ### The main induction -/

theorem nestedSeq_append (F : List IEntry) (v : IEntry)
    (h : nestedSeq (F ++ [v]) = true) :
    nestedSeq F = true ∧ ∀ w ∈ F, entDisj w v = true ∨ entStrictIn v w = true := by
  induction F with
  | nil => simp [nestedSeq]
  | cons u rest ih =>
    simp only [List.cons_append, nestedSeq, Bool.and_eq_true, List.all_eq_true,
      List.mem_append, List.mem_singleton] at h
    obtain ⟨hall, htail⟩ := h
    obtain ⟨htail', hrel⟩ := ih htail
    constructor
    · simp only [nestedSeq, Bool.and_eq_true, List.all_eq_true]
      exact ⟨fun w hw => hall w (List.mem_append.2 (Or.inl hw)), htail'⟩
    · intro w hw
      rcases List.mem_cons.1 hw with rfl | hw'
      · have hvv := hall v (List.mem_append.2 (Or.inr (List.mem_singleton.2 rfl)))
        rw [Bool.or_eq_true] at hvv
        exact hvv
      · exact hrel w hw'

theorem wfSeq_append (F : List IEntry) (v : IEntry)
    (h : wfSeq (F ++ [v]) = true) :
    wfSeq F = true ∧ v.b ≤ v.e ∧ v.id < SENTINEL ∧
      ∀ w ∈ F, entDisj w v = true ∨ entStrictIn v w = true := by
  rw [wfSeq, Bool.and_eq_true, List.all_eq_true] at h
  obtain ⟨hall, hnest⟩ := h
  obtain ⟨hnest', hrel⟩ := nestedSeq_append F v hnest
  have hv := hall v (List.mem_append.2 (Or.inr (List.mem_singleton.2 rfl)))
  simp only [Bool.and_eq_true, decide_eq_true_eq] at hv
  refine ⟨?_, hv.1, hv.2, hrel⟩
  rw [wfSeq, Bool.and_eq_true, List.all_eq_true]
  exact ⟨fun w hw => hall w (List.mem_append.2 (Or.inl hw)), hnest'⟩

theorem wfSeq_bounds (F : List IEntry) (h : wfSeq F = true) :
    (∀ w ∈ F, w.b ≤ w.e) ∧ ∀ w ∈ F, w.id < SENTINEL := by
  rw [wfSeq, Bool.and_eq_true, List.all_eq_true] at h
  constructor
  · intro w hw
    have hww := h.1 w hw
    simp only [Bool.and_eq_true, decide_eq_true_eq] at hww
    exact hww.1
  · intro w hw
    have hww := h.1 w hw
    simp only [Bool.and_eq_true, decide_eq_true_eq] at hww
    exact hww.2

theorem onlineOfUpdates_append (F : List IEntry) (v : IEntry) :
    onlineOfUpdates (F ++ [v]) =
      onlineUpdate (onlineOfUpdates F) v.b v.e v.id := by
  unfold onlineOfUpdates
  rw [List.foldl_append]
  rfl

theorem INV_ofUpdates (F : List IEntry) (h : wfSeq F = true) :
    INV (onlineOfUpdates F) F := by
  induction F using List.reverseRecOn with
  | nil =>
    constructor
    · intro k
      simp [onlineOfUpdates, mapFind, isBound]
    · intro k hk
      simp [isBound] at hk
  | append_singleton F v ih =>
    obtain ⟨hF, hvb, hvid, hrel⟩ := wfSeq_append F v h
    obtain ⟨hwf, hid⟩ := wfSeq_bounds F hF
    rw [onlineOfUpdates_append]
    exact INV_update (onlineOfUpdates F) F v (ih hF) hwf hid hvb hrel

/-- The ONLINE stabber answers the deepest updated interval. -/
theorem onlineStab_deepest (F : List IEntry) (h : wfSeq F = true) (p : Nat) :
    onlineStab (onlineOfUpdates F) p = deepestId F p :=
  onlineStab_INV (onlineOfUpdates F) F (INV_ofUpdates F h)
    (wfSeq_bounds F h).2 p

/-- The last containing interval is nested inside every containing
interval. -/
theorem deepest_innermost (F : List IEntry) (h : nestedSeq F = true)
    (p : Nat) (v : IEntry) (hd : deepest F p = some v) :
    v ∈ F ∧ containsB v p = true ∧
      ∀ w ∈ F, containsB w p = true → w.b ≤ v.b ∧ v.e ≤ w.e := by
  have hvmem : v ∈ F.filter (fun u => containsB u p) :=
    List.mem_of_mem_getLast? hd
  have hvF : v ∈ F := (List.mem_filter.1 hvmem).1
  have hvc : containsB v p = true := by
    simpa using (List.mem_filter.1 hvmem).2
  refine ⟨hvF, hvc, ?_⟩
  induction F with
  | nil => simp at hvF
  | cons u rest ih =>
    simp only [nestedSeq, Bool.and_eq_true, List.all_eq_true] at h
    obtain ⟨hall, htail⟩ := h
    intro w hw hwc
    unfold deepest at hd
    rcases List.mem_cons.1 hw with rfl | hw'
    · -- w is the head; if w = v done, else v comes later and is nested in w
      by_cases hwv : w = v
      · subst hwv; exact ⟨le_refl _, le_refl _⟩
      · have hvrest : v ∈ rest := by
          rcases List.mem_cons.1 hvF with rfl | hv'
          · exact absurd rfl hwv
          · exact hv'
        have hx := hall v hvrest
        rw [Bool.or_eq_true] at hx
        rcases hx with hdj | hs
        · rw [entDisj_iff] at hdj
          rw [containsB_iff] at hvc hwc
          omega
        · rw [entStrictIn_iff] at hs
          exact ⟨hs.1, hs.2.1⟩
    · -- w in the tail: recurse on the tail
      have hfl : (u :: rest).filter (fun x => containsB x p) =
          (if containsB u p = true then [u] else []) ++
            rest.filter (fun x => containsB x p) := by
        rcases hcu : containsB u p <;> simp [List.filter_cons, hcu]
      rw [hfl] at hd
      rcases hre : rest.filter (fun x => containsB x p) with _ | ⟨x, xs⟩
      · exfalso
        have hwmem : w ∈ rest.filter (fun x => containsB x p) :=
          List.mem_filter.2 ⟨hw', by simpa using hwc⟩
        rw [hre] at hwmem
        simp at hwmem
      · have hdrest : deepest rest p = some v := by
          unfold deepest
          rw [hre] at hd ⊢
          rwa [List.getLast?_append_of_ne_nil _ (by simp)] at hd
        have hvrest : v ∈ rest :=
          (List.mem_filter.1 (List.mem_of_mem_getLast? hdrest)).1
        exact ih htail hdrest
          (List.mem_filter.2 ⟨hvrest, by simpa using hvc⟩) hvrest w hw' hwc

/-! ### The FAST invariant -/

/-- Invariant tying the FAST bitmap and lookup to the update sequence:
set bits are exactly the interval bounds, each bound's lookup entry is
the deepest interval covering it (absent when none), and lookup keys are
set bits. -/
def INVF (s : FastS) (F : List IEntry) : Prop :=
  (∀ k, s.bits.contains k = true ↔ isBound F k = true) ∧
  (∀ k, isBound F k = true → mapFind s.lookup k = deepestId F k) ∧
  (∀ k, (mapFind s.lookup k).isSome → isBound F k = true)

theorem fastStab_INVF (s : FastS) (F : List IEntry)
    (h : INVF s F) (p : Nat) : fastStab s p = deepestId F p := by
  unfold fastStab
  cases hmk : listMax (s.bits.filter (fun j => decide (j ≤ p))) with
  | none =>
    rw [listMax_eq_none] at hmk
    have hfe : F.filter (fun v => containsB v p) = [] := by
      apply List.filter_eq_nil_iff.mpr
      intro v hv hc
      rw [containsB_iff] at hc
      have hbit : v.b ∈ s.bits := by
        rw [← List.elem_iff]
        exact (h.1 v.b).2 (isBound_of_b hv)
      have : v.b ∈ s.bits.filter (fun j => decide (j ≤ p)) :=
        List.mem_filter.2 ⟨hbit, by simpa using hc.1⟩
      rw [hmk] at this
      simp at this
    simp [deepestId, deepest, hfe]
  | some j =>
    dsimp only
    obtain ⟨hjmem, hjall⟩ := listMax_spec _ _ hmk
    rw [List.mem_filter] at hjmem
    have hjb : isBound F j = true := by
      rw [← h.1 j, List.elem_iff]
      exact hjmem.1
    have hjp : j ≤ p := by simpa using hjmem.2
    have hmaxb : ∀ k', isBound F k' = true → k' ≤ p → k' ≤ j := by
      intro k' hk' hle
      apply hjall
      rw [List.mem_filter]
      refine ⟨?_, by simpa using hle⟩
      rw [← List.elem_iff]
      exact (h.1 k').2 hk'
    rw [h.2.1 j hjb]
    unfold deepestId deepest
    congr 1
    congr 1
    exact List.filter_congr (contains_bound_equiv F p j hjp hmaxb)

/-- Membership after the conditional bitmap adds in `fastUpdate`. -/
theorem mem_bitsAdd (l : List Nat) (x k : Nat) :
    ((if l.contains x then l else x :: l).contains k = true) ↔
      (k = x ∨ l.contains k = true) := by
  simp only [List.elem_iff]
  split
  · rename_i hx
    constructor
    · exact fun hh => Or.inr hh
    · rintro (rfl | hh)
      · exact hx
      · exact hh
  · simp [List.mem_cons]

theorem isBound_append_iff (F : List IEntry) (v : IEntry) (k : Nat) :
    isBound (F ++ [v]) k = true ↔
      (isBound F k = true ∨ v.b = k ∨ v.e + 1 = k) := by
  rw [isBound_append]
  simp

theorem INVF_update (s : FastS) (F : List IEntry) (v : IEntry)
    (h : INVF s F)
    (hwf : ∀ w ∈ F, w.b ≤ w.e)
    (hvwf : v.b ≤ v.e)
    (hrel : ∀ w ∈ F, entDisj w v = true ∨ entStrictIn v w = true) :
    INVF (fastUpdate s v.b v.e v.id) (F ++ [v]) := by
  have hstab : fastStab s v.b = deepestId F v.b := fastStab_INVF s F h v.b
  have hbne : v.b ≠ v.e + 1 := by omega
  unfold fastUpdate
  rw [hstab]
  by_cases hp : s.bits.contains (v.e + 1) = true
  all_goals simp only [hp, if_true, if_false, Bool.false_eq_true]
  -- present case: intermediate state is s itself
  case pos =>
    refine ⟨?_, ?_, ?_⟩
    · intro k
      rw [mem_bitsAdd, h.1 k, isBound_append_iff]
      constructor
      · rintro (rfl | hh)
        · exact Or.inr (Or.inl rfl)
        · exact Or.inl hh
      · rintro (hh | rfl | rfl)
        · exact Or.inr hh
        · exact Or.inl rfl
        · exact Or.inr ((h.1 _).1 hp)
    · intro k hkbd
      by_cases hkb : k = v.b
      · subst hkb
        rw [mapFind_mapInsert_self]
        have hc : containsB v v.b = true := by rw [containsB_iff]; omega
        rw [deepestId, deepest_append_contains F v v.b hc]
        rfl
      · rw [mapFind_mapInsert_ne _ _ _ _ hkb]
        by_cases hke : k = v.e + 1
        · subst hke
          have hb : isBound F (v.e + 1) = true := (h.1 _).1 hp
          rw [h.2.1 _ hb, deepestId, deepestId,
            deepest_append_not F v (v.e + 1) (containsB_eplus_false v)]
        · have hbF : isBound F k = true := by
            rw [isBound_append] at hkbd
            have h1 : (v.b == k) = false := by
              simp; exact fun hh => hkb hh.symm
            have h2 : (v.e + 1 == k) = false := by
              simp; exact fun hh => hke hh.symm
            rw [h1, h2] at hkbd
            simpa using hkbd
          have hcv : containsB v k = false := by
            cases hcc : containsB v k
            · rfl
            · exfalso
              rw [containsB_iff] at hcc
              have hlt : v.b < k := by
                rcases Nat.lt_or_ge v.b k with hh | hh
                · exact hh
                · omega
              have := noBound_inside F v hwf hrel k hlt hcc.2
              rw [this] at hbF
              simp at hbF
          rw [h.2.1 k hbF, deepestId, deepestId, deepest_append_not F v k hcv]
    · intro k hk
      by_cases hkb : k = v.b
      · subst hkb
        rw [isBound_append_iff]
        exact Or.inr (Or.inl rfl)
      · rw [mapFind_mapInsert_ne _ _ _ _ hkb] at hk
        rw [isBound_append_iff]
        exact Or.inl (h.2.2 k hk)
  -- absent case: the end bit and (possibly) the parent entry are added
  case neg =>
    have hnb : isBound F (v.e + 1) = false := by
      cases hbb : isBound F (v.e + 1)
      · rfl
      · exact absurd ((h.1 _).2 hbb) hp
    have hlknone : mapFind s.lookup (v.e + 1) = none := by
      cases hmm : mapFind s.lookup (v.e + 1)
      · rfl
      · exfalso
        have := h.2.2 (v.e + 1) (by rw [hmm]; rfl)
        rw [hnb] at this
        simp at this
    have heqd : deepestId F (v.e + 1) = deepestId F v.b := by
      unfold deepestId deepest
      congr 1
      congr 1
      exact List.filter_congr (contains_eplus_eq_b F v hwf hvwf hrel hnb)
    -- the lookup after the end+1 step stores exactly deepestId F (v.e+1)
    have hlk1 : ∀ k,
        mapFind (match deepestId F v.b with
          | none => s.lookup
          | some pid => mapInsert s.lookup (v.e + 1) pid) k =
        if k = v.e + 1 then deepestId F (v.e + 1) else mapFind s.lookup k := by
      intro k
      rw [heqd]
      cases hd : deepestId F v.b with
      | none =>
        by_cases hke : k = v.e + 1
        · subst hke; simp [hlknone]
        · simp [hke]
      | some pid =>
        by_cases hke : k = v.e + 1
        · subst hke; simp [mapFind_mapInsert_self]
        · simp only [if_neg hke]
          exact mapFind_mapInsert_ne _ _ _ _ hke
    have hbits : ∀ k, (((v.e + 1) :: s.bits).contains k = true) ↔
        (k = v.e + 1 ∨ s.bits.contains k = true) := by
      intro k
      simp [List.elem_iff, List.mem_cons]
    refine ⟨?_, ?_, ?_⟩
    · intro k
      rw [mem_bitsAdd, hbits k, h.1 k, isBound_append_iff]
      constructor
      · rintro (rfl | rfl | hh)
        · exact Or.inr (Or.inl rfl)
        · exact Or.inr (Or.inr rfl)
        · exact Or.inl hh
      · rintro (hh | rfl | rfl)
        · exact Or.inr (Or.inr hh)
        · exact Or.inl rfl
        · exact Or.inr (Or.inl rfl)
    · intro k hkbd
      by_cases hkb : k = v.b
      · subst hkb
        rw [mapFind_mapInsert_self]
        have hc : containsB v v.b = true := by rw [containsB_iff]; omega
        rw [deepestId, deepest_append_contains F v v.b hc]
        rfl
      · rw [mapFind_mapInsert_ne _ _ _ _ hkb, hlk1 k]
        by_cases hke : k = v.e + 1
        · subst hke
          rw [if_pos rfl, deepestId, deepestId,
            deepest_append_not F v (v.e + 1) (containsB_eplus_false v)]
        · rw [if_neg hke]
          have hbF : isBound F k = true := by
            rw [isBound_append] at hkbd
            have h1 : (v.b == k) = false := by
              simp; exact fun hh => hkb hh.symm
            have h2 : (v.e + 1 == k) = false := by
              simp; exact fun hh => hke hh.symm
            rw [h1, h2] at hkbd
            simpa using hkbd
          have hcv : containsB v k = false := by
            cases hcc : containsB v k
            · rfl
            · exfalso
              rw [containsB_iff] at hcc
              have hlt : v.b < k := by
                rcases Nat.lt_or_ge v.b k with hh | hh
                · exact hh
                · omega
              have := noBound_inside F v hwf hrel k hlt hcc.2
              rw [this] at hbF
              simp at hbF
          rw [h.2.1 k hbF, deepestId, deepestId, deepest_append_not F v k hcv]
    · intro k hk
      by_cases hkb : k = v.b
      · subst hkb
        rw [isBound_append_iff]
        exact Or.inr (Or.inl rfl)
      · rw [mapFind_mapInsert_ne _ _ _ _ hkb, hlk1 k] at hk
        rw [isBound_append_iff]
        by_cases hke : k = v.e + 1
        · subst hke
          exact Or.inr (Or.inr rfl)
        · rw [if_neg hke] at hk
          exact Or.inl (h.2.2 k hk)

theorem fastOfUpdates_append (F : List IEntry) (v : IEntry) :
    fastOfUpdates (F ++ [v]) = fastUpdate (fastOfUpdates F) v.b v.e v.id := by
  unfold fastOfUpdates
  rw [List.foldl_append]
  rfl

theorem INVF_ofUpdates (F : List IEntry) (h : wfSeq F = true) :
    INVF (fastOfUpdates F) F := by
  induction F using List.reverseRecOn with
  | nil =>
    refine ⟨?_, ?_, ?_⟩
    · intro k; simp [fastOfUpdates, isBound]
    · intro k hk; simp [isBound] at hk
    · intro k hk; simp [fastOfUpdates, mapFind] at hk
  | append_singleton F v ih =>
    obtain ⟨hF, hvb, _, hrel⟩ := wfSeq_append F v h
    obtain ⟨hwf, _⟩ := wfSeq_bounds F hF
    rw [fastOfUpdates_append]
    exact INVF_update (fastOfUpdates F) F v (ih hF) hwf hvb hrel

/-- The FAST stabber answers the deepest updated interval. -/
theorem fastStab_deepest (F : List IEntry) (h : wfSeq F = true) (p : Nat) :
    fastStab (fastOfUpdates F) p = deepestId F p :=
  fastStab_INVF (fastOfUpdates F) F (INVF_ofUpdates F h) p

/-! ### The C2 statements -/

theorem nestedSeq_of_wfSeq (F : List IEntry) (h : wfSeq F = true) :
    nestedSeq F = true := by
  rw [wfSeq, Bool.and_eq_true] at h
  exact h.2

/-- C2 (amended): for every update sequence of genuine intervals (ids
below `2^64 - 1`) in which each new interval is, with respect to each
previously updated interval, disjoint from it or strictly nested inside
it, the ONLINE and the FAST stabbers agree, return none at positions no
updated interval contains, and otherwise return the id of the deepest
(innermost) updated interval containing the query position. -/
theorem online_fast_stab_deepest (F : List IEntry) (hw : wfSeq F = true)
    (p : Nat) :
    fastStab (fastOfUpdates F) p = onlineStab (onlineOfUpdates F) p ∧
    ((∀ v ∈ F, containsB v p = false) →
      onlineStab (onlineOfUpdates F) p = none) ∧
    ∀ v ∈ F, containsB v p = true →
      ∃ d, d ∈ F ∧ containsB d p = true ∧
        onlineStab (onlineOfUpdates F) p = some d.id ∧
        ∀ w ∈ F, containsB w p = true → w.b ≤ d.b ∧ d.e ≤ w.e := by
  have ho := onlineStab_deepest F hw p
  have hf := fastStab_deepest F hw p
  refine ⟨hf.trans ho.symm, ?_, ?_⟩
  · intro hnone
    rw [ho]
    have hfe : F.filter (fun v => containsB v p) = [] :=
      List.filter_eq_nil_iff.mpr (fun v hv => by rw [hnone v hv]; simp)
    simp [deepestId, deepest, hfe]
  · intro v hv hc
    cases hd : deepest F p with
    | none =>
      exfalso
      unfold deepest at hd
      rw [List.getLast?_eq_none_iff] at hd
      have : v ∈ F.filter (fun u => containsB u p) :=
        List.mem_filter.2 ⟨hv, by simpa using hc⟩
      rw [hd] at this
      simp at this
    | some d =>
      obtain ⟨hdF, hdc, hinner⟩ :=
        deepest_innermost F (nestedSeq_of_wfSeq F hw) p d hd
      refine ⟨d, hdF, hdc, ?_, hinner⟩
      rw [ho, deepestId, hd]
      rfl

/-- Witness for the amended C2 at a concrete update sequence. -/
theorem online_fast_stab_deepest_witness :
    wfSeq [⟨0, 9, 100⟩, ⟨2, 5, 101⟩] = true ∧
    (fastStab (fastOfUpdates [⟨0, 9, 100⟩, ⟨2, 5, 101⟩]) 3 =
        onlineStab (onlineOfUpdates [⟨0, 9, 100⟩, ⟨2, 5, 101⟩]) 3 ∧
      ((∀ v ∈ [(⟨0, 9, 100⟩ : IEntry), ⟨2, 5, 101⟩], containsB v 3 = false) →
        onlineStab (onlineOfUpdates [⟨0, 9, 100⟩, ⟨2, 5, 101⟩]) 3 = none) ∧
      ∀ v ∈ [(⟨0, 9, 100⟩ : IEntry), ⟨2, 5, 101⟩], containsB v 3 = true →
        ∃ d, d ∈ [(⟨0, 9, 100⟩ : IEntry), ⟨2, 5, 101⟩] ∧ containsB d 3 = true ∧
          onlineStab (onlineOfUpdates [⟨0, 9, 100⟩, ⟨2, 5, 101⟩]) 3 = some d.id ∧
          ∀ w ∈ [(⟨0, 9, 100⟩ : IEntry), ⟨2, 5, 101⟩], containsB w 3 = true →
            w.b ≤ d.b ∧ d.e ≤ w.e) :=
  ⟨by decide, online_fast_stab_deepest [⟨0, 9, 100⟩, ⟨2, 5, 101⟩] (by decide) 3⟩

/-- C2 counterexample: the update sequence `(0,19), (5,5), (0,9)`
satisfies the claim's written precondition (each interval is disjoint
from all previous ones or strictly nested within one of them), yet both
stabbers answer position 7 with the id of `(0,19)` although the deepest
updated interval containing 7 is `(0,9)` with a different id. -/
theorem online_fast_claim_refuted :
    claimPre [⟨0, 19, 100⟩, ⟨5, 5, 101⟩, ⟨0, 9, 102⟩] = true ∧
    (∀ v ∈ [(⟨0, 19, 100⟩ : IEntry), ⟨5, 5, 101⟩, ⟨0, 9, 102⟩],
      v.b ≤ v.e ∧ v.id < SENTINEL) ∧
    onlineStab (onlineOfUpdates [⟨0, 19, 100⟩, ⟨5, 5, 101⟩, ⟨0, 9, 102⟩]) 7 =
      some 100 ∧
    fastStab (fastOfUpdates [⟨0, 19, 100⟩, ⟨5, 5, 101⟩, ⟨0, 9, 102⟩]) 7 =
      some 100 ∧
    (⟨0, 9, 102⟩ : IEntry) ∈ [(⟨0, 19, 100⟩ : IEntry), ⟨5, 5, 101⟩, ⟨0, 9, 102⟩] ∧
    containsB ⟨0, 9, 102⟩ 7 = true ∧
    (∀ w ∈ [(⟨0, 19, 100⟩ : IEntry), ⟨5, 5, 101⟩, ⟨0, 9, 102⟩],
      containsB w 7 = true → w.b ≤ 0 ∧ 9 ≤ w.e) ∧
    (100 : Nat) ≠ 102 := by
  decide


/-! ### Erasure lemmas for the map model -/

theorem mapFind_mapErase_self (m : List (Nat × Nat)) (k : Nat) :
    mapFind (mapErase m k) k = none := by
  induction m with
  | nil => simp [mapErase, mapFind]
  | cons kv r ih =>
    obtain ⟨a, w⟩ := kv
    by_cases ha : a = k
    · subst ha
      rw [mapErase, List.filter_cons_of_neg (by simp)]
      exact ih
    · rw [mapErase, List.filter_cons_of_pos (by simpa using ha)]
      simp only [mapFind, if_neg ha]
      exact ih

theorem mapFind_mapErase_ne (m : List (Nat × Nat)) (k k' : Nat) (h : k' ≠ k) :
    mapFind (mapErase m k) k' = mapFind m k' :=
  mapFind_filterOut m k k' h


inductive IdOp where
  | get (value lb rb : Nat)
  | remove (value lb rb : Nat)
deriving Repr, DecidableEq

def applyOp (T : List Nat) (s : IdState) : IdOp → IdState
  | .get v lb rb => (getId T s v lb rb).1
  | .remove v lb rb => removeId T s v lb rb

def applyOps (T : List Nat) (ops : List IdOp) (s : IdState) : IdState :=
  ops.foldl (applyOp T) s

/-- The state of the id assigner after a sequence of calls. -/
def idAfter (T : List Nat) (ops : List IdOp) : IdState :=
  applyOps T ops (idInit T)

/-- The id returned by a `getId` call issued after `ops`. -/
def getOut (T : List Nat) (ops : List IdOp) (v lb rb : Nat) : Nat :=
  (getId T (idAfter T ops) v lb rb).2

/-- Does the call remove the mapping of `key`? -/
def isRemoveOf (T : List Nat) (key : Nat) : IdOp → Bool
  | .get _ _ _ => false
  | .remove v lb _ => saAt T lb + v == key

/-- All ids stored in the map are below the counter. -/
def idInv (s : IdState) : Prop :=
  ∀ k v, mapFind s.repeatIds k = some v → v < s.counter

theorem idInv_init (T : List Nat) : idInv (idInit T) := by
  intro k v h
  simp [idInit, mapFind] at h

theorem idInv_applyOp (T : List Nat) (s : IdState) (op : IdOp)
    (h : idInv s) : idInv (applyOp T s op) := by
  cases op with
  | get v lb rb =>
    simp only [applyOp, getId]
    cases hf : mapFind s.repeatIds (saAt T lb + v) with
    | some w => exact h
    | none =>
      dsimp only
      intro k w hk
      by_cases hkk : k = saAt T lb + v
      · subst hkk
        rw [mapFind_mapInsert_self] at hk
        cases hk
        exact Nat.lt_succ_self _
      · rw [mapFind_mapInsert_ne _ _ _ _ hkk] at hk
        exact Nat.lt_trans (h k w hk) (Nat.lt_succ_self _)
  | remove v lb rb =>
    intro k w hk
    simp only [applyOp, removeId] at hk
    by_cases hkk : k = saAt T lb + v
    · subst hkk
      rw [mapFind_mapErase_self] at hk
      exact absurd hk (by simp)
    · rw [mapFind_mapErase_ne _ _ _ hkk] at hk
      exact h k w hk

theorem counter_applyOp_le (T : List Nat) (s : IdState) (op : IdOp) :
    s.counter ≤ (applyOp T s op).counter := by
  cases op with
  | get v lb rb =>
    simp only [applyOp, getId]
    cases mapFind s.repeatIds (saAt T lb + v) with
    | some w => exact le_refl _
    | none => exact Nat.le_succ _
  | remove v lb rb => exact le_refl _

theorem counter_applyOps_le (T : List Nat) (ops : List IdOp) (s : IdState) :
    s.counter ≤ (applyOps T ops s).counter := by
  induction ops generalizing s with
  | nil => exact le_refl _
  | cons op rest ih =>
    exact le_trans (counter_applyOp_le T s op) (ih (applyOp T s op))

theorem idInv_applyOps (T : List Nat) (ops : List IdOp) (s : IdState)
    (h : idInv s) : idInv (applyOps T ops s) := by
  induction ops generalizing s with
  | nil => exact h
  | cons op rest ih => exact ih _ (idInv_applyOp T s op h)

/-- A present binding survives any call sequence without a remove of its
key. -/
theorem binding_persists (T : List Nat) (ops : List IdOp) (s : IdState)
    (key x : Nat) (hx : mapFind s.repeatIds key = some x)
    (hno : ∀ op ∈ ops, isRemoveOf T key op = false) :
    mapFind (applyOps T ops s).repeatIds key = some x := by
  induction ops generalizing s with
  | nil => exact hx
  | cons op rest ih =>
    apply ih (applyOp T s op)
    · cases op with
      | get v lb rb =>
        simp only [applyOp, getId]
        cases hf : mapFind s.repeatIds (saAt T lb + v) with
        | some w => exact hx
        | none =>
          by_cases hkk : key = saAt T lb + v
          · subst hkk; rw [hf] at hx; exact absurd hx (by simp)
          · rw [mapFind_mapInsert_ne _ _ _ _ hkk]
            exact hx
      | remove v lb rb =>
        have hr := hno (.remove v lb rb) (List.mem_cons_self _ _)
        simp only [isRemoveOf, beq_eq_false_iff_ne, ne_eq] at hr
        simp only [applyOp, removeId]
        rw [mapFind_mapErase_ne _ _ _ (fun hh => hr hh.symm)]
        exact hx
    · intro o ho
      exact hno o (List.mem_cons_of_mem _ ho)

/-- After a removal the key is unbound or bound to an id at least `c`,
with the counter at least `c`. -/
def keyGE (s : IdState) (key c : Nat) : Prop :=
  (mapFind s.repeatIds key = none ∨
    ∃ v, mapFind s.repeatIds key = some v ∧ c ≤ v) ∧ c ≤ s.counter

theorem keyGE_applyOp (T : List Nat) (s : IdState) (op : IdOp) (key c : Nat)
    (h : keyGE s key c) : keyGE (applyOp T s op) key c := by
  obtain ⟨hbind, hc⟩ := h
  refine ⟨?_, le_trans hc (counter_applyOp_le T s op)⟩
  cases op with
  | get v lb rb =>
    simp only [applyOp, getId]
    cases hf : mapFind s.repeatIds (saAt T lb + v) with
    | some w => exact hbind
    | none =>
      by_cases hkk : key = saAt T lb + v
      · subst hkk
        right
        exact ⟨s.counter, mapFind_mapInsert_self _ _ _, hc⟩
      · rw [mapFind_mapInsert_ne _ _ _ _ hkk]
        exact hbind
  | remove v lb rb =>
    simp only [applyOp, removeId]
    by_cases hkk : key = saAt T lb + v
    · subst hkk
      left
      exact mapFind_mapErase_self _ _
    · rw [mapFind_mapErase_ne _ _ _ hkk]
      exact hbind

theorem keyGE_applyOps (T : List Nat) (ops : List IdOp) (s : IdState)
    (key c : Nat) (h : keyGE s key c) : keyGE (applyOps T ops s) key c := by
  induction ops generalizing s with
  | nil => exact h
  | cons op rest ih => exact ih _ (keyGE_applyOp T s op key c h)

theorem keyGE_mono (s : IdState) (key c c' : Nat) (hcc : c' ≤ c)
    (h : keyGE s key c) : keyGE s key c' := by
  obtain ⟨hbind, hc⟩ := h
  refine ⟨?_, le_trans hcc hc⟩
  rcases hbind with h1 | ⟨v, h2, h3⟩
  · exact Or.inl h1
  · exact Or.inr ⟨v, h2, le_trans hcc h3⟩

/-- If the sequence contains a removal of the key, the key's binding ends
unbound or rebound to an id no smaller than the initial counter. -/
theorem keyGE_of_remove (T : List Nat) (ops : List IdOp) (s : IdState)
    (key : Nat) (h : ∃ op ∈ ops, isRemoveOf T key op = true) :
    keyGE (applyOps T ops s) key s.counter := by
  induction ops generalizing s with
  | nil => simp at h
  | cons op rest ih =>
    by_cases hop : isRemoveOf T key op = true
    · -- this very op removes the key
      cases op with
      | get v lb rb => simp [isRemoveOf] at hop
      | remove v lb rb =>
        have hop2 : saAt T lb + v = key := by
          have h0 : (saAt T lb + v == key) = true := hop
          exact eq_of_beq h0
        show keyGE (applyOps T rest (applyOp T s (IdOp.remove v lb rb)))
          key s.counter
        apply keyGE_applyOps
        refine ⟨Or.inl ?_, le_refl _⟩
        simp only [applyOp, removeId]
        rw [hop2]
        exact mapFind_mapErase_self _ _
    · obtain ⟨o, ho, hro⟩ := h
      rcases List.mem_cons.1 ho with rfl | ho'
      · exact absurd hro hop
      · have := ih (applyOp T s op) ⟨o, ho', hro⟩
        exact keyGE_mono _ _ _ _ (counter_applyOp_le T s op) this

/-- The id returned by `getId` is below the resulting counter. -/
theorem getId_lt_counter (T : List Nat) (s : IdState) (v lb rb : Nat)
    (h : idInv s) : (getId T s v lb rb).2 < (getId T s v lb rb).1.counter := by
  simp only [getId]
  cases hf : mapFind s.repeatIds (saAt T lb + v) with
  | some w => exact h _ w hf
  | none => exact Nat.lt_succ_self _

/-- After `getId`, the key is bound to the returned id. -/
theorem getId_binds (T : List Nat) (s : IdState) (v lb rb : Nat) :
    mapFind (getId T s v lb rb).1.repeatIds (saAt T lb + v) =
      some (getId T s v lb rb).2 := by
  simp only [getId]
  cases hf : mapFind s.repeatIds (saAt T lb + v) with
  | some w => exact hf
  | none => exact mapFind_mapInsert_self _ _ _

/-- C6: two `getId` calls with the same key `sa[lb] + ℓ` return the same
id exactly when no `removeId` of that key lies between them; the assigner
starts at `sigma` and fresh keys receive the counter value, which then
increments (first-come order); a bound key returns its binding with the
state unchanged. -/
theorem getId_same_iff (T : List Nat) (pre mid : List IdOp)
    (v1 lb1 rb1 v2 lb2 rb2 : Nat)
    (hkey : saAt T lb2 + v2 = saAt T lb1 + v1) :
    (getOut T (pre ++ IdOp.get v1 lb1 rb1 :: mid) v2 lb2 rb2 =
        getOut T pre v1 lb1 rb1 ↔
      ∀ op ∈ mid, isRemoveOf T (saAt T lb1 + v1) op = false) ∧
    getNextId (idInit T) = sigmaOf T ∧
    (∀ s v lb rb, mapFind s.repeatIds (saAt T lb + v) = none →
      (getId T s v lb rb).2 = s.counter ∧
        (getId T s v lb rb).1.counter = s.counter + 1) ∧
    (∀ s v lb rb x, mapFind s.repeatIds (saAt T lb + v) = some x →
      (getId T s v lb rb).2 = x ∧ (getId T s v lb rb).1 = s) := by
  refine ⟨?_, rfl, ?_, ?_⟩
  · -- the iff
    set key := saAt T lb1 + v1 with hkeydef
    set s1 := idAfter T pre with hs1
    have hs1inv : idInv s1 := idInv_applyOps T pre _ (idInv_init T)
    set r1 := getId T s1 v1 lb1 rb1 with hr1
    have hmid : idAfter T (pre ++ IdOp.get v1 lb1 rb1 :: mid) =
        applyOps T mid r1.1 := by
      rw [idAfter, applyOps, List.foldl_append, List.foldl_cons]
      rfl
    constructor
    · -- same id → no remove in between (contrapositive)
      intro hsame
      by_contra hrem
      push_neg at hrem
      obtain ⟨op, hop, hro⟩ := hrem
      have hex : ∃ o ∈ mid, isRemoveOf T key o = true := by
        refine ⟨op, hop, ?_⟩
        cases hb : isRemoveOf T key op
        · exact absurd hb hro
        · rfl
      have hge := keyGE_of_remove T mid r1.1 key hex
      have hid1 : r1.2 < r1.1.counter := getId_lt_counter T s1 v1 lb1 rb1 hs1inv
      -- the second get returns an id ≥ r1.1.counter > r1.2
      have h2 : getOut T (pre ++ IdOp.get v1 lb1 rb1 :: mid) v2 lb2 rb2 ≥
          r1.1.counter := by
        rw [getOut, hmid]
        simp only [getId, hkey, ← hkeydef]
        obtain ⟨hbind, hc⟩ := hge
        rcases hbind with h1 | ⟨v, h2, h3⟩
        · rw [h1]
          exact hc
        · rw [h2]
          exact h3
      have hr1out : getOut T pre v1 lb1 rb1 = r1.2 := rfl
      omega
    · -- no remove in between → same id
      intro hno
      have hbind : mapFind r1.1.repeatIds key = some r1.2 :=
        getId_binds T s1 v1 lb1 rb1
      have hper := binding_persists T mid r1.1 key r1.2 hbind hno
      rw [getOut, hmid]
      simp only [getId, hkey, ← hkeydef]
      rw [hper]
      rfl
  · intro s v lb rb h
    simp only [getId]
    rw [h]
    exact ⟨rfl, rfl⟩
  · intro s v lb rb x h
    simp only [getId]
    rw [h]
    exact ⟨rfl, rfl⟩

theorem getId_same_iff_witness :
    (getOut [1, 2] ([] ++ IdOp.get 1 0 0 :: []) 1 0 0 = getOut [1, 2] [] 1 0 0 ↔
      ∀ op ∈ ([] : List IdOp),
        isRemoveOf [1, 2] (saAt [1, 2] 0 + 1) op = false) ∧
    getNextId (idInit [1, 2]) = sigmaOf [1, 2] ∧
    (∀ s v lb rb, mapFind s.repeatIds (saAt [1, 2] lb + v) = none →
      (getId [1, 2] s v lb rb).2 = s.counter ∧
        (getId [1, 2] s v lb rb).1.counter = s.counter + 1) ∧
    (∀ s v lb rb x, mapFind s.repeatIds (saAt [1, 2] lb + v) = some x →
      (getId [1, 2] s v lb rb).2 = x ∧ (getId [1, 2] s v lb rb).1 = s) :=
  getId_same_iff [1, 2] [] [] 1 0 0 1 0 0 rfl


theorem alFind_filterOut {α : Type} (m : List (Nat × α)) (k k' : Nat)
    (h : k' ≠ k) :
    alFind (m.filter (fun kv => kv.1 ≠ k)) k' = alFind m k' := by
  induction m with
  | nil => simp
  | cons kv r ih =>
    obtain ⟨a, w⟩ := kv
    by_cases ha : a = k
    · subst ha
      rw [List.filter_cons_of_neg (by simp)]
      rw [ih]
      simp only [alFind]
      rw [if_neg (fun hh : a = k' => h (hh ▸ rfl))]
    · rw [List.filter_cons_of_pos (by simpa using ha)]
      simp only [alFind]
      by_cases hk' : a = k'
      · simp [hk']
      · simp only [if_neg hk']
        exact ih

theorem alFind_alInsert_self {α : Type} (m : List (Nat × α)) (k : Nat) (v : α) :
    alFind (alInsert m k v) k = some v := by
  simp [alInsert, alFind]

theorem alFind_alInsert_ne {α : Type} (m : List (Nat × α)) (k : Nat) (v : α)
    (k' : Nat) (h : k' ≠ k) :
    alFind (alInsert m k v) k' = alFind m k' := by
  simp only [alInsert, alFind]
  rw [if_neg (fun hh => h hh.symm)]
  exact alFind_filterOut m k k' h

theorem alFind_alErase_self {α : Type} (m : List (Nat × α)) (k : Nat) :
    alFind (alErase m k) k = none := by
  induction m with
  | nil => simp [alErase, alFind]
  | cons kv r ih =>
    obtain ⟨a, w⟩ := kv
    by_cases ha : a = k
    · subst ha
      rw [alErase, List.filter_cons_of_neg (by simp)]
      exact ih
    · rw [alErase, List.filter_cons_of_pos (by simpa using ha)]
      simp only [alFind, if_neg ha]
      exact ih

theorem alFind_alErase_ne {α : Type} (m : List (Nat × α)) (k k' : Nat)
    (h : k' ≠ k) : alFind (alErase m k) k' = alFind m k' :=
  alFind_filterOut m k k' h

/-! ### placeholders for CSA-derived data (replaced in the assembled file) -/

/-! ### Builder invariants -/

/-- Invariant carried through the emission loop. -/
structure BInv (σ : Nat) (st : BuildState) : Prop where
  sizesTerm : ∀ c, c < σ → mapFind st.sizes c = some 1
  idsLow : ∀ k v, mapFind st.ids.repeatIds k = some v → σ ≤ v
  counterLow : σ ≤ st.ids.counter
  cfgLen : ∀ r prod, alFind st.cfg r = some prod → 1 < prod.length

theorem mapFind_range_rev (σ : Nat) (c : Nat) (hc : c < σ) :
    mapFind (((List.range σ).map (fun i => (i, 1))).reverse) c = some 1 := by
  induction σ with
  | zero => omega
  | succ m ih =>
    rw [List.range_succ]
    simp only [List.map_append, List.reverse_append]
    by_cases hcm : c = m
    · subst hcm
      simp [mapFind]
    · have : c < m := by omega
      simp only [List.map_cons, List.map_nil, List.reverse_cons,
        List.reverse_nil, List.nil_append, List.singleton_append]
      simp only [mapFind]
      rw [if_neg (fun hh => hcm hh.symm)]
      exact ih this

theorem BInv_init (T : List Nat) (alg : Alg) :
    BInv (sigmaOf T) (buildInit T alg) := by
  refine ⟨?_, ?_, ?_, ?_⟩
  · intro c hc
    exact mapFind_range_rev (sigmaOf T) c hc
  · intro k v h
    simp [buildInit, idInit, mapFind] at h
  · exact le_refl _
  · intro r prod h
    simp [buildInit, alFind] at h

/-- The id delivered by `getId` is at least `sigma`. -/
theorem getId_ge_sigma (T : List Nat) (σ : Nat) (ids : IdState)
    (hlow : ∀ k v, mapFind ids.repeatIds k = some v → σ ≤ v)
    (hc : σ ≤ ids.counter) (value lb rb : Nat) :
    σ ≤ (getId T ids value lb rb).2 := by
  simp only [getId]
  cases hf : mapFind ids.repeatIds (saAt T lb + value) with
  | some v => exact hlow _ v hf
  | none => exact hc

theorem BInv_step (T : List Nat) (st : BuildState) (em : Emission)
    (h : BInv (sigmaOf T) st) : BInv (sigmaOf T) (buildStep T st em) := by
  set σ := sigmaOf T with hσ
  set rid := stepRid T st em with hrid
  have hridσ : σ ≤ rid :=
    getId_ge_sigma T σ st.ids h.idsLow h.counterLow em.lcp em.lb em.rb
  have hids1 : ∀ k v,
      mapFind (getId T st.ids em.lcp em.lb em.rb).1.repeatIds k = some v →
        σ ≤ v := by
    intro k v hk
    simp only [getId] at hk
    cases hf : mapFind st.ids.repeatIds (saAt T em.lb + em.lcp) with
    | some w =>
      rw [hf] at hk
      exact h.idsLow k v hk
    | none =>
      rw [hf] at hk
      dsimp only at hk
      by_cases hkk : k = saAt T em.lb + em.lcp
      · subst hkk
        rw [mapFind_mapInsert_self] at hk
        cases hk
        exact h.counterLow
      · rw [mapFind_mapInsert_ne _ _ _ _ hkk] at hk
        exact h.idsLow k v hk
  have hctr1 : σ ≤ (getId T st.ids em.lcp em.lb em.rb).1.counter := by
    simp only [getId]
    cases hf : mapFind st.ids.repeatIds (saAt T em.lb + em.lcp) with
    | some w => exact h.counterLow
    | none => exact le_trans h.counterLow (Nat.le_succ _)
  have hsz2 : ∀ c, c < σ → mapFind (stepSizes T st em) c = some 1 := by
    intro c hc
    have hcne : c ≠ rid := by omega
    rw [stepSizes, ← hrid]
    rw [mapFind_mapInsert_ne _ _ _ _ hcne]
    split
    · exact h.sizesTerm c hc
    · rw [mapFind_mapInsert_ne _ _ _ _ hcne]
      exact h.sizesTerm c hc
  have hrem : ∀ k v,
      mapFind (removeId T (getId T st.ids em.lcp em.lb em.rb).1 em.lcp em.lb
        em.rb).repeatIds k = some v → σ ≤ v := by
    intro k v hk
    simp only [removeId] at hk
    by_cases hkk : k = saAt T em.lb + em.lcp
    · subst hkk
      rw [mapFind_mapErase_self] at hk
      exact absurd hk (by simp)
    · rw [mapFind_mapErase_ne _ _ _ hkk] at hk
      exact hids1 k v hk
  rw [buildStep, ← hrid]
  split
  · split
    · -- install branch
      refine ⟨?_, ?_, ?_, ?_⟩
      · intro c hc
        exact hsz2 c hc
      · exact hrem
      · exact hctr1
      · intro r prod hr
        by_cases hrr : r = rid
        · subst hrr
          rw [alFind_alInsert_self] at hr
          cases hr
          assumption
        · rw [alFind_alInsert_ne _ _ _ _ hrr] at hr
          exact h.cfgLen r prod hr
    · -- discard branch
      refine ⟨?_, ?_, ?_, ?_⟩
      · intro c hc
        have hcne : c ≠ rid := by omega
        rw [mapFind_mapErase_ne _ _ _ hcne]
        exact hsz2 c hc
      · exact hrem
      · exact hctr1
      · intro r prod hr
        by_cases hrr : r = rid
        · subst hrr
          rw [alFind_alErase_self] at hr
          exact absurd hr (by simp)
        · rw [alFind_alErase_ne _ _ _ hrr] at hr
          rw [alFind_alInsert_ne _ _ _ _ hrr] at hr
          exact h.cfgLen r prod hr
  · -- non-maximal branch
    refine ⟨?_, ?_, ?_, ?_⟩
    · intro c hc
      exact hsz2 c hc
    · exact hids1
    · exact hctr1
    · exact h.cfgLen

theorem BInv_fold (T : List Nat) (ems : List Emission) (st : BuildState)
    (h : BInv (sigmaOf T) st) :
    BInv (sigmaOf T) (ems.foldl (buildStep T) st) := by
  induction ems generalizing st with
  | nil => exact h
  | cons em rest ih => exact ih _ (BInv_step T st em h)

theorem BInv_at (T : List Nat) (alg : Alg) (k : Nat) :
    BInv (sigmaOf T) (buildStateAt T alg k) :=
  BInv_fold T _ _ (BInv_init T alg)

/-- C10: throughout the emission loop of `csaToCfg`, every terminal id
`c < sigma` keeps `rule_production_sizes[c] = 1`, and the id assigner
only ever hands out ids `≥ sigma`. -/
theorem terminal_sizes_stay_one (T : List Nat) (alg : Alg) (k c : Nat)
    (hc : c < sigmaOf T) :
    mapFind (buildStateAt T alg k).sizes c = some 1 ∧
    ∀ value lb rb,
      sigmaOf T ≤ (getId T (buildStateAt T alg k).ids value lb rb).2 := by
  have h := BInv_at T alg k
  refine ⟨h.sizesTerm c hc, ?_⟩
  intro value lb rb
  exact getId_ge_sigma T _ _ h.idsLow h.counterLow value lb rb

theorem terminal_sizes_stay_one_witness :
    mapFind (buildStateAt [1, 2, 1, 2] Alg.ONLINE 2).sizes 1 = some 1 ∧
    ∀ value lb rb, sigmaOf [1, 2, 1, 2] ≤
      (getId [1, 2, 1, 2] (buildStateAt [1, 2, 1, 2] Alg.ONLINE 2).ids value lb rb).2 :=
  terminal_sizes_stay_one [1, 2, 1, 2] Alg.ONLINE 2 1 (by decide)

/-- C5: every rule other than the start rule in the grammar returned by
`csaToCfg` has a production of more than one symbol; when a maximal
interval's synthesized production has length ≤ 1 the builder discards it:
the rule's grammar entry and its size-map entry are erased and the
stabber is left untouched (the rule is never registered). -/
theorem no_unit_rules (T : List Nat) (alg : Alg) :
    (∀ r prod, alFind (csaToCfg T alg).1 r = some prod →
      r ≠ (csaToCfg T alg).2 → 1 < prod.length) ∧
    (∀ st em, 1 < em.ext → ¬ 1 < (stepProd T st em).length →
      alFind (buildStep T st em).cfg (stepRid T st em) = none ∧
      mapFind (buildStep T st em).sizes (stepRid T st em) = none ∧
      (buildStep T st em).stb = st.stb) := by
  constructor
  · intro r prod hr hne
    have hinv : BInv (sigmaOf T)
        (((emissionsOf T).drop 1).foldl (buildStep T) (buildInit T alg)) :=
      BInv_fold T _ _ (BInv_init T alg)
    rw [csaToCfg] at hr hne
    dsimp only at hr hne
    rw [alFind_alInsert_ne _ _ _ _ hne] at hr
    exact hinv.cfgLen r prod hr
  · intro st em hext hlen
    rw [buildStep]
    rw [if_pos hext, if_neg hlen]
    refine ⟨?_, ?_, rfl⟩
    · exact alFind_alErase_self _ _
    · exact mapFind_mapErase_self _ _


/-! ### List helper lemmas -/

theorem getD_map_range {A : Type} (f : Nat → A) (m x : Nat) (d : A) :
    ((List.range m).map f).getD x d = if x < m then f x else d := by
  rw [List.getD_eq_getElem?_getD, List.getElem?_map]
  by_cases h : x < m
  · rw [List.getElem?_range h]
    simp [h]
  · rw [List.getElem?_eq_none_iff.mpr (by simpa using Nat.le_of_not_lt h)]
    simp [h]

theorem getD_set_self {A : Type} (l : List A) (k : Nat) (b d : A)
    (h : k < l.length) : (l.set k b).getD k d = b := by
  rw [List.getD_eq_getElem?_getD, List.getElem?_set_self (by simpa using h)]
  rfl

theorem getD_set_ne {A : Type} (l : List A) (k j : Nat) (b d : A) (h : j ≠ k) :
    (l.set k b).getD j d = l.getD j d := by
  rw [List.getD_eq_getElem?_getD, List.getElem?_set_ne (fun e => h e.symm),
    ← List.getD_eq_getElem?_getD]

theorem sum_map_one (l : List Nat) : (l.map (fun _ => 1)).sum = l.length := by
  induction l with
  | nil => rfl
  | cons x xs ih => simp [ih, Nat.add_comm]

/-- Summing the multiplicities of a duplicate-free list of symbols that
covers `l` recovers the length of `l`. -/
theorem sum_counts (l as : List Nat) (hnd : as.Nodup)
    (hcov : ∀ x ∈ l, x ∈ as) : (as.map (fun c => l.count c)).sum = l.length := by
  induction as generalizing l with
  | nil =>
    have : l = [] := by
      cases l with
      | nil => rfl
      | cons x xs => exact absurd (hcov x (List.mem_cons_self x xs)) (by simp)
    simp [this]
  | cons a rest ih =>
    have hnd' := List.nodup_cons.mp hnd
    have hcnt : ∀ c ∈ rest, l.count c = (l.filter (fun x => !(x == a))).count c := by
      intro c hc
      have hne : c ≠ a := fun e => hnd'.1 (e ▸ hc)
      rw [List.count_filter (by simpa using hne)]
    have hmap : rest.map (fun c => l.count c)
        = rest.map (fun c => (l.filter (fun x => !(x == a))).count c) :=
      List.map_eq_map_iff.mpr hcnt
    have hcov' : ∀ x ∈ l.filter (fun x => !(x == a)), x ∈ rest := by
      intro x hx
      have hx' := List.mem_filter.mp hx
      have := hcov x hx'.1
      rcases List.mem_cons.mp this with h | h
      · exact absurd h (by simpa using hx'.2)
      · exact h
    have hsplit : l.length = (l.filter (fun x => x == a)).length
        + (l.filter (fun x => !(x == a))).length :=
      List.length_eq_length_filter_add (fun x => x == a)
    have hcount : l.count a = (l.filter (fun x => x == a)).length := by
      rw [List.count, List.countP_eq_length_filter]
    simp only [List.map_cons, List.sum_cons, hmap,
      ih (l.filter (fun x => !(x == a))) hnd'.2 hcov']
    omega

/-! ### Alphabet and C-array facts -/

theorem alpha_pairwise (T : List Nat) : (alphaOf T).Pairwise (· < ·) :=
  (List.pairwise_lt_range 256).filter _

theorem alpha_nodup (T : List Nat) : (alphaOf T).Nodup :=
  (alpha_pairwise T).imp (fun h => Nat.ne_of_lt h)

theorem zero_mem_alpha (T : List Nat) : 0 ∈ alphaOf T := by
  refine List.mem_filter.mpr ⟨List.mem_range.mpr (by norm_num), ?_⟩
  simp [textOf, List.elem_iff]

theorem sigma_pos (T : List Nat) : 0 < sigmaOf T :=
  List.length_pos.mpr (List.ne_nil_of_mem (zero_mem_alpha T))

theorem mem_alpha_of_mem_text (T : List Nat) (hwf : wfInput T) (x : Nat)
    (hx : x ∈ textOf T) : x ∈ alphaOf T := by
  have hlt : x < 256 := by
    rcases List.mem_append.mp hx with h | h
    · exact (hwf.2 x h).2
    · simp at h; omega
  exact List.mem_filter.mpr ⟨List.mem_range.mpr hlt, by simpa [List.elem_iff] using hx⟩

theorem cArr_zero (T : List Nat) : cArr T 0 = 0 := rfl

theorem cArr_succ (T : List Nat) (k : Nat) (hk : k < sigmaOf T) :
    cArr T (k + 1) = cArr T k + (textOf T).count ((alphaOf T).getD k 0) := by
  unfold cArr
  have hg : (alphaOf T).getD k 0 = (alphaOf T)[k] := by
    rw [List.getD_eq_getElem?_getD, List.getElem?_eq_getElem hk]; rfl
  rw [List.take_succ, List.getElem?_eq_getElem hk, hg, Option.toList_some,
    List.map_append, List.sum_append]
  simp only [List.map_cons, List.map_nil, List.sum_cons, List.sum_nil, Nat.add_zero]

theorem count_alpha_pos (T : List Nat) (k : Nat) (hk : k < sigmaOf T) :
    0 < (textOf T).count ((alphaOf T).getD k 0) := by
  have hmem : (alphaOf T).getD k 0 ∈ alphaOf T := by
    rw [List.getD_eq_getElem?_getD, List.getElem?_eq_getElem hk]
    exact List.getElem_mem hk
  have := (List.mem_filter.mp hmem).2
  exact List.count_pos_iff.mpr (by simpa [List.elem_iff] using this)

theorem cArr_lt_succ (T : List Nat) (k : Nat) (hk : k < sigmaOf T) :
    cArr T k < cArr T (k + 1) := by
  rw [cArr_succ T k hk]
  have := count_alpha_pos T k hk
  omega

theorem cArr_mono (T : List Nat) (i j : Nat) (hij : i < j) (hj : j ≤ sigmaOf T) :
    cArr T i < cArr T j := by
  induction j with
  | zero => omega
  | succ m ih =>
    have hm : m < sigmaOf T := by omega
    rcases Nat.lt_or_ge i m with h | h
    · exact Nat.lt_trans (ih h (by omega)) (cArr_lt_succ T m hm)
    · have : i = m := by omega
      subst this
      exact cArr_lt_succ T i hm

theorem cArr_le_of_le (T : List Nat) (i j : Nat) (hij : i ≤ j) (hj : j ≤ sigmaOf T) :
    cArr T i ≤ cArr T j := by
  rcases Nat.lt_or_ge i j with h | h
  · exact Nat.le_of_lt (cArr_mono T i j h hj)
  · have : i = j := by omega
    simp [this]

theorem cArr_sigma (T : List Nat) (hwf : wfInput T) :
    cArr T (sigmaOf T) = nOf T := by
  unfold cArr sigmaOf
  rw [List.take_length]
  exact sum_counts (textOf T) (alphaOf T) (alpha_nodup T)
    (fun x hx => mem_alpha_of_mem_text T hwf x hx)

/-! ### pushChildren preservation -/

/-- One step of the `pushChildren` fold. -/
def pushOne (T : List Nat) (lb rb : Nat) (s : GenState) (c : Nat) : GenState :=
  if c = 0 then s
  else
    { s with queues := s.queues.set (char2comp T c)
                 (s.queues.getD (char2comp T c) [] ++
                   [(cArr T (char2comp T c) + rankSym T c lb,
                     cArr T (char2comp T c) + rankSym T c rb)]) }

theorem pushChildren_eq_foldl (T : List Nat) (st : GenState) (syms : List Nat)
    (lb rb : Nat) :
    pushChildren T st syms lb rb = syms.foldl (pushOne T lb rb) st := rfl

theorem pushChildren_cons (T : List Nat) (c : Nat) (cs : List Nat)
    (st : GenState) (lb rb : Nat) :
    pushChildren T st (c :: cs) lb rb =
      pushChildren T (pushOne T lb rb st c) cs lb rb := by
  rw [pushChildren_eq_foldl, pushChildren_eq_foldl, List.foldl_cons]

theorem pushChildren_fields (T : List Nat) (syms : List Nat) (st : GenState)
    (lb rb : Nat) :
    (pushChildren T st syms lb rb).finished = st.finished ∧
    (pushChildren T st syms lb rb).lastIdx = st.lastIdx ∧
    (pushChildren T st syms lb rb).lastLb = st.lastLb ∧
    (pushChildren T st syms lb rb).exts = st.exts ∧
    (pushChildren T st syms lb rb).locMax = st.locMax := by
  induction syms generalizing st with
  | nil => exact ⟨rfl, rfl, rfl, rfl, rfl⟩
  | cons c cs ih =>
    rw [pushChildren_cons]
    rcases ih (pushOne T lb rb st c) with ⟨h1, h2, h3, h4, h5⟩
    rw [h1, h2, h3, h4, h5]
    unfold pushOne
    by_cases hc : c = 0
    · rw [if_pos hc]
      exact ⟨rfl, rfl, rfl, rfl, rfl⟩
    · rw [if_neg hc]
      exact ⟨rfl, rfl, rfl, rfl, rfl⟩

/-- Pushing children only appends to queues, so a queue whose front is
`x` keeps that front. -/
theorem pushChildren_front (T : List Nat) (syms : List Nat) (st : GenState)
    (lb rb k : Nat) (x : Nat × Nat)
    (h : ∃ junk, st.queues.getD k [] = x :: junk) :
    ∃ junk, (pushChildren T st syms lb rb).queues.getD k [] = x :: junk := by
  induction syms generalizing st with
  | nil => exact h
  | cons c cs ih =>
    rw [pushChildren_cons]
    apply ih
    rcases h with ⟨junk, hj⟩
    unfold pushOne
    by_cases hc : c = 0
    · rw [if_pos hc]
      exact ⟨junk, hj⟩
    · rw [if_neg hc]
      by_cases hk : k = char2comp T c
      · by_cases hlen : k < st.queues.length
        · refine ⟨junk ++ [(cArr T (char2comp T c) + rankSym T c lb,
            cArr T (char2comp T c) + rankSym T c rb)], ?_⟩
          show (st.queues.set (char2comp T c) _).getD k [] = _
          rw [← hk, getD_set_self _ _ _ _ hlen, hj]
          rfl
        · refine ⟨junk, ?_⟩
          show (st.queues.set (char2comp T c) _).getD k [] = _
          rw [List.set_eq_of_length_le (by omega)]
          exact hj
      · refine ⟨junk, ?_⟩
        show (st.queues.set (char2comp T c) _).getD k [] = _
        rw [getD_set_ne _ _ _ _ _ hk]
        exact hj

/-! ### processEntry branch characterisations -/

/-- The state reached inside `processEntry` after recording extensions and
pushing child intervals, before the finished test. -/
def entryMid (T : List Nat) (st : GenState) (lb rb : Nat) : GenState :=
  pushChildren T
    { st with exts := (uniqueSyms (bwtRange T lb rb)).foldl insertSym st.exts }
    (uniqueSyms (bwtRange T lb rb)) lb rb

theorem entryMid_finished (T : List Nat) (st : GenState) (lb rb : Nat) :
    (entryMid T st lb rb).finished = st.finished :=
  (pushChildren_fields T _ _ lb rb).1

theorem entryMid_lastIdx (T : List Nat) (st : GenState) (lb rb : Nat) :
    (entryMid T st lb rb).lastIdx = st.lastIdx :=
  (pushChildren_fields T _ _ lb rb).2.1

theorem entryMid_lastLb (T : List Nat) (st : GenState) (lb rb : Nat) :
    (entryMid T st lb rb).lastLb = st.lastLb :=
  (pushChildren_fields T _ _ lb rb).2.2.1

/-- First visit of an interval with unfinished right bound: the bound is
marked finished, `last_idx`/`last_lb` move, and nothing is emitted. -/
theorem processEntry_mark (T : List Nat) (lcp : Nat) (st : GenState) (lb rb : Nat)
    (hfin : st.finished.getD rb false = false) :
    processEntry T lcp st lb rb =
      ({ entryMid T st lb rb with
          finished := (entryMid T st lb rb).finished.set rb true
          lastLb := if (entryMid T st lb rb).lastIdx ≠ lb then lb
                    else (entryMid T st lb rb).lastLb
          lastIdx := rb }, none) := by
  simp only [processEntry]
  split
  · split
    · rfl
    · rename_i h2
      rw [show (pushChildren T
          { st with exts := List.foldl insertSym st.exts (uniqueSyms (bwtRange T lb rb)) }
          (uniqueSyms (bwtRange T lb rb)) lb rb).finished = st.finished from
          (pushChildren_fields T _ _ lb rb).1, hfin] at h2
      simp at h2
  · rename_i h
    rw [hfin] at h
    simp at h

/-- Second visit of an interval whose right bound is already finished and
whose left bound continues the previous entry: an LCP interval is
emitted and the per-entry registers reset. -/
theorem processEntry_emit (T : List Nat) (lcp : Nat) (st : GenState) (lb rb : Nat)
    (hfin : st.finished.getD rb false = true) (hlast : st.lastIdx = lb) :
    processEntry T lcp st lb rb =
      ({ entryMid T st lb rb with
          exts := [], lastLb := 0, lastIdx := 0, locMax := true },
       some ⟨lcp, (entryMid T st lb rb).lastLb, rb - 1,
         (entryMid T st lb rb).exts.length,
         if lb ≠ rb - 1 then false else (entryMid T st lb rb).locMax⟩) := by
  simp only [processEntry]
  split
  · split
    · rename_i h2
      rw [show (pushChildren T
          { st with exts := List.foldl insertSym st.exts (uniqueSyms (bwtRange T lb rb)) }
          (uniqueSyms (bwtRange T lb rb)) lb rb).finished = st.finished from
          (pushChildren_fields T _ _ lb rb).1, hfin] at h2
      simp at h2
    · rfl
  · rename_i h
    rw [hfin, hlast] at h
    simp at h

/-! ### Round-0 invariant -/

/-- Invariant of the first round's fold after the queues of symbols
`< j` have been drained: nothing emitted yet, `last_idx` has advanced to
`C[j]` with `last_lb` still `0`, and `finished` holds exactly `0`, `n`
and the bounds `C[1..j]`; queues `≥ j` still front their seed interval. -/
def round0Inv (T : List Nat) (j : Nat) (acc : GenState × List Emission) : Prop :=
  acc.2 = [] ∧
  acc.1.lastIdx = cArr T j ∧
  acc.1.lastLb = 0 ∧
  acc.1.finished.length = nOf T + 1 ∧
  (∀ x, acc.1.finished.getD x false = true ↔
    (x = 0 ∨ x = nOf T ∨ ∃ m, 1 ≤ m ∧ m ≤ j ∧ x = cArr T m)) ∧
  (∀ k, j ≤ k → k < sigmaOf T → ∃ junk,
    acc.1.queues.getD k [] = (cArr T k, cArr T (k + 1)) :: junk)

theorem round0Inv_init (T : List Nat) : round0Inv T 0 (genInit T, []) := by
  refine ⟨rfl, rfl, rfl, ?_, ?_, ?_⟩
  · simp [genInit]
  · intro x
    show (((List.range (nOf T + 1)).map
      (fun i => decide (i = 0) || decide (i = nOf T))).getD x false = true) ↔ _
    rw [getD_map_range]
    constructor
    · intro h
      by_cases hx : x < nOf T + 1
      · rw [if_pos hx] at h
        rw [Bool.or_eq_true] at h
        rcases h with h | h
        · exact Or.inl (by simpa using h)
        · exact Or.inr (Or.inl (by simpa using h))
      · rw [if_neg hx] at h
        cases h
    · intro h
      rcases h with h | h | ⟨m, h1, h2, _⟩
      · subst h
        rw [if_pos (by omega)]
        simp
      · subst h
        rw [if_pos (by omega)]
        simp
      · omega
  · intro k _ hk
    show ∃ junk, (((List.range (sigmaOf T)).map
      (fun k => [(cArr T k, cArr T (k + 1))])).getD k [] = _)
    rw [getD_map_range, if_pos hk]
    exact ⟨[], rfl⟩

/-- The per-queue snapshot sizes at the start of round 0 are all `1`. -/
theorem genInit_sizes (T : List Nat) (k : Nat) :
    ((genInit T).queues.map List.length).getD k 0 =
      if k < sigmaOf T then 1 else 0 := by
  show (((List.range (sigmaOf T)).map
    (fun k => [(cArr T k, cArr T (k + 1))])).map List.length).getD k 0 = _
  rw [List.map_map, getD_map_range]
  by_cases h : k < sigmaOf T
  · rw [if_pos h, if_pos h]
    rfl
  · rw [if_neg h, if_neg h]

/-- One step of the round-0 fold in `processRound`. -/
def round0Step (T : List Nat) (acc : GenState × List Emission) (k : Nat) :
    GenState × List Emission :=
  ((processQueue T 0 k (((genInit T).queues.map List.length).getD k 0) acc.1).1,
   acc.2 ++ (processQueue T 0 k (((genInit T).queues.map List.length).getD k 0) acc.1).2)

theorem processRound_zero (T : List Nat) :
    processRound T 0 (genInit T) =
      (List.range (sigmaOf T)).foldl (round0Step T) (genInit T, []) := rfl

/-- Draining a single entry from queue `k`. -/
theorem processQueue_one (T : List Nat) (lcp k : Nat) (st : GenState)
    (lb rb : Nat) (junk : List (Nat × Nat))
    (hq : st.queues.getD k [] = (lb, rb) :: junk) :
    processQueue T lcp k 1 st =
      ((processEntry T lcp { st with queues := st.queues.set k junk } lb rb).1,
       (processEntry T lcp { st with queues := st.queues.set k junk } lb rb).2.toList) := by
  show processQueue T lcp k (0 + 1) st = _
  simp only [processQueue]
  rw [hq]
  simp only [processQueue]
  rw [List.append_nil]

theorem cArr_succ_le_n (T : List Nat) (hwf : wfInput T) (j : Nat)
    (hj : j + 1 ≤ sigmaOf T) : cArr T (j + 1) ≤ nOf T := by
  have := cArr_le_of_le T (j + 1) (sigmaOf T) hj (Nat.le_refl _)
  rw [cArr_sigma T hwf] at this
  exact this

theorem round0Inv_step (T : List Nat) (hwf : wfInput T) (j : Nat)
    (hj : j + 1 < sigmaOf T) (acc : GenState × List Emission)
    (h : round0Inv T j acc) : round0Inv T (j + 1) (round0Step T acc j) := by
  rcases h with ⟨he, hlidx, hllb, hflen, hfin, hq⟩
  rcases hq j (Nat.le_refl j) (by omega) with ⟨junk, hjq⟩
  have hCpos : 0 < cArr T (j + 1) := by
    have := cArr_mono T 0 (j + 1) (by omega) (by omega)
    simpa [cArr_zero] using this
  have hClt : cArr T (j + 1) < nOf T := by
    have := cArr_mono T (j + 1) (sigmaOf T) hj (Nat.le_refl _)
    rwa [cArr_sigma T hwf] at this
  have hCne : acc.1.finished.getD (cArr T (j + 1)) false = false := by
    cases hb : acc.1.finished.getD (cArr T (j + 1)) false
    · rfl
    · exfalso
      rcases (hfin _).mp hb with h0 | h0 | ⟨m, hm1, hm2, hm3⟩
      · omega
      · omega
      · have := cArr_mono T m (j + 1) (by omega) (by omega)
        omega
  have hone : ((genInit T).queues.map List.length).getD j 0 = 1 := by
    rw [genInit_sizes, if_pos (by omega)]
  have hmark := processEntry_mark T 0
    { acc.1 with queues := acc.1.queues.set j junk }
    (cArr T j) (cArr T (j + 1)) hCne
  have hstep : round0Step T acc j =
      ({ entryMid T { acc.1 with queues := acc.1.queues.set j junk }
            (cArr T j) (cArr T (j + 1)) with
          finished := (entryMid T { acc.1 with queues := acc.1.queues.set j junk }
            (cArr T j) (cArr T (j + 1))).finished.set (cArr T (j + 1)) true
          lastLb := if (entryMid T { acc.1 with queues := acc.1.queues.set j junk }
              (cArr T j) (cArr T (j + 1))).lastIdx ≠ cArr T j then cArr T j
            else (entryMid T { acc.1 with queues := acc.1.queues.set j junk }
              (cArr T j) (cArr T (j + 1))).lastLb
          lastIdx := cArr T (j + 1) }, []) := by
    unfold round0Step
    rw [hone, processQueue_one T 0 j acc.1 _ _ junk hjq, hmark, he]
    rfl
  rw [hstep]
  refine ⟨rfl, rfl, ?_, ?_, ?_, ?_⟩
  · show (if (entryMid T { acc.1 with queues := acc.1.queues.set j junk }
        (cArr T j) (cArr T (j + 1))).lastIdx ≠ cArr T j then cArr T j
      else (entryMid T { acc.1 with queues := acc.1.queues.set j junk }
        (cArr T j) (cArr T (j + 1))).lastLb) = 0
    rw [entryMid_lastIdx, entryMid_lastLb]
    show (if acc.1.lastIdx ≠ cArr T j then cArr T j else acc.1.lastLb) = 0
    rw [hlidx, if_neg (fun hh => hh rfl)]
    exact hllb
  · show ((entryMid T { acc.1 with queues := acc.1.queues.set j junk }
        (cArr T j) (cArr T (j + 1))).finished.set (cArr T (j + 1)) true).length
      = nOf T + 1
    rw [List.length_set, entryMid_finished]
    exact hflen
  · intro x
    show (((entryMid T { acc.1 with queues := acc.1.queues.set j junk }
        (cArr T j) (cArr T (j + 1))).finished.set (cArr T (j + 1)) true).getD x false
      = true) ↔ _
    rw [entryMid_finished]
    by_cases hx : x = cArr T (j + 1)
    · subst hx
      rw [getD_set_self _ _ _ _ (by
        show cArr T (j + 1) < acc.1.finished.length
        rw [hflen]
        omega)]
      exact iff_of_true rfl (Or.inr (Or.inr ⟨j + 1, by omega, Nat.le_refl _, rfl⟩))
    · rw [getD_set_ne _ _ _ _ _ hx]
      rw [hfin x]
      constructor
      · intro hcase
        rcases hcase with h0 | h0 | ⟨m, hm1, hm2, hm3⟩
        · exact Or.inl h0
        · exact Or.inr (Or.inl h0)
        · exact Or.inr (Or.inr ⟨m, hm1, by omega, hm3⟩)
      · intro hcase
        rcases hcase with h0 | h0 | ⟨m, hm1, hm2, hm3⟩
        · exact Or.inl h0
        · exact Or.inr (Or.inl h0)
        · refine Or.inr (Or.inr ⟨m, hm1, ?_, hm3⟩)
          rcases Nat.lt_or_ge m (j + 1) with hlt | hge
          · omega
          · exfalso
            have : m = j + 1 := by omega
            subst this
            exact hx hm3
  · intro k hk1 hk2
    show ∃ junk2, (entryMid T { acc.1 with queues := acc.1.queues.set j junk }
        (cArr T j) (cArr T (j + 1))).queues.getD k [] = (cArr T k, cArr T (k + 1)) :: junk2
    apply pushChildren_front
    show ∃ junk2, (acc.1.queues.set j junk).getD k [] = (cArr T k, cArr T (k + 1)) :: junk2
    rw [getD_set_ne _ _ _ _ _ (by omega)]
    exact hq k (by omega) hk2

theorem round0Inv_fold (T : List Nat) (hwf : wfInput T) (j : Nat)
    (hj : j < sigmaOf T) :
    round0Inv T j ((List.range j).foldl (round0Step T) (genInit T, [])) := by
  induction j with
  | zero => exact round0Inv_init T
  | succ m ih =>
    rw [List.range_succ, List.foldl_append]
    simp only [List.foldl_cons, List.foldl_nil]
    exact round0Inv_step T hwf m hj _ (ih (by omega))

theorem round0_last (T : List Nat) (hwf : wfInput T) (j : Nat)
    (hj : j + 1 = sigmaOf T) (acc : GenState × List Emission)
    (h : round0Inv T j acc) :
    ∃ stf ex lm, round0Step T acc j = (stf, [⟨0, 0, nOf T - 1, ex, lm⟩]) := by
  rcases h with ⟨he, hlidx, hllb, hflen, hfin, hq⟩
  rcases hq j (Nat.le_refl j) (by omega) with ⟨junk, hjq⟩
  have hCn : cArr T (j + 1) = nOf T := by rw [hj, cArr_sigma T hwf]
  have hCfin : acc.1.finished.getD (cArr T (j + 1)) false = true :=
    (hfin _).mpr (Or.inr (Or.inl hCn))
  have hone : ((genInit T).queues.map List.length).getD j 0 = 1 := by
    rw [genInit_sizes, if_pos (by omega)]
  have hemit := processEntry_emit T 0
    { acc.1 with queues := acc.1.queues.set j junk } (cArr T j) (cArr T (j + 1))
    hCfin hlidx
  refine ⟨{ entryMid T { acc.1 with queues := acc.1.queues.set j junk }
        (cArr T j) (cArr T (j + 1)) with
        exts := [], lastLb := 0, lastIdx := 0, locMax := true },
    (entryMid T { acc.1 with queues := acc.1.queues.set j junk }
      (cArr T j) (cArr T (j + 1))).exts.length,
    (if cArr T j ≠ cArr T (j + 1) - 1 then false
     else (entryMid T { acc.1 with queues := acc.1.queues.set j junk }
       (cArr T j) (cArr T (j + 1))).locMax), ?_⟩
  unfold round0Step
  rw [hone, processQueue_one T 0 j acc.1 _ _ junk hjq, hemit, he]
  rw [entryMid_lastLb]
  show (_, [] ++ [(⟨0, acc.1.lastLb, cArr T (j + 1) - 1, _, _⟩ : Emission)]) = _
  rw [hllb, hCn, List.nil_append]

theorem processRound_zero_emits (T : List Nat) (hwf : wfInput T) :
    ∃ stf ex lm, processRound T 0 (genInit T) = (stf, [⟨0, 0, nOf T - 1, ex, lm⟩]) := by
  have hs : 0 < sigmaOf T := sigma_pos T
  have hfold := round0Inv_fold T hwf (sigmaOf T - 1) (by omega)
  obtain ⟨stf, ex, lm, hlast⟩ := round0_last T hwf (sigmaOf T - 1) (by omega) _ hfold
  refine ⟨stf, ex, lm, ?_⟩
  rw [processRound_zero]
  have hsig : sigmaOf T = (sigmaOf T - 1) + 1 := by omega
  rw [hsig, List.range_succ, List.foldl_append]
  simp only [List.foldl_cons, List.foldl_nil]
  exact hlast

theorem totalEntries_genInit (T : List Nat) : totalEntries (genInit T) = sigmaOf T := by
  show (((List.range (sigmaOf T)).map
    (fun k => [(cArr T k, cArr T (k + 1))])).map List.length).sum = _
  rw [List.map_map]
  have hcomp : (List.length ∘ fun k => [(cArr T k, cArr T (k + 1))])
      = fun (_ : Nat) => 1 := rfl
  rw [hcomp, sum_map_one, List.length_range]

theorem emissionsOf_head (T : List Nat) (hwf : wfInput T) :
    ∃ ex lm, (emissionsOf T).head? = some ⟨0, 0, nOf T - 1, ex, lm⟩ := by
  obtain ⟨stf, ex, lm, hround⟩ := processRound_zero_emits T hwf
  refine ⟨ex, lm, ?_⟩
  show (genRun T (2 * nOf T + 4) 0 (genInit T)).head? = _
  have h4 : 2 * nOf T + 4 = (2 * nOf T + 3) + 1 := by omega
  rw [h4]
  simp only [genRun]
  rw [if_neg (by rw [totalEntries_genInit]; have := sigma_pos T; omega), hround]
  rfl

/-- C8: for every well-formed (in particular non-empty) input, the first
interval emitted by the LCP-interval enumerator is the length-0 interval
spanning SA positions `[0, n-1]`, where `n` is the text size including
the sentinel: the first entry of `emissionsOf T` has `lcp = 0`, `lb = 0`
and `rb = nOf T - 1`. -/
theorem first_emission_spans_all (T : List Nat) (hwf : wfInput T) :
    ∃ em, (emissionsOf T).head? = some em ∧ em.lcp = 0 ∧ em.lb = 0 ∧
      em.rb = nOf T - 1 := by
  obtain ⟨ex, lm, h⟩ := emissionsOf_head T hwf
  exact ⟨_, h, rfl, rfl, rfl⟩

theorem first_emission_spans_all_witness :
    wfInput [1, 2] ∧ ∃ em, (emissionsOf [1, 2]).head? = some em ∧
      em.lcp = 0 ∧ em.lb = 0 ∧ em.rb = nOf [1, 2] - 1 :=
  ⟨by decide, first_emission_spans_all [1, 2] (by decide)⟩

/-! ### The sentinel is never printed -/

/-- Every compact index `≥ 1` maps to a positive byte: the compact
alphabet is strictly sorted, so only index `0` can hold byte `0`. -/
theorem comp2char_pos (T : List Nat) (k : Nat) (h1 : 0 < k)
    (h2 : k < sigmaOf T) : 0 < comp2char T k := by
  have hp := alpha_pairwise T
  have hlen : 0 < (alphaOf T).length := Nat.lt_of_le_of_lt (Nat.zero_le k) h2
  have h0 : (alphaOf T).get ⟨0, hlen⟩ < (alphaOf T).get ⟨k, h2⟩ :=
    List.pairwise_iff_get.mp hp ⟨0, hlen⟩ ⟨k, h2⟩ h1
  have hc : comp2char T k = (alphaOf T).get ⟨k, h2⟩ := by
    show (alphaOf T).getD k 0 = _
    rw [List.getD_eq_getElem?_getD, List.getElem?_eq_getElem h2]
    rfl
  omega

theorem mem_foldl_append {α : Type} (f : Nat → List α) (l : List Nat)
    (init : List α) (x : α)
    (h : x ∈ l.foldl (fun acc r => acc ++ f r) init) :
    x ∈ init ∨ ∃ r ∈ l, x ∈ f r := by
  induction l generalizing init with
  | nil => exact Or.inl h
  | cons a as ih =>
    rw [List.foldl_cons] at h
    rcases ih (init ++ f a) h with hi | ⟨r, hr, hx⟩
    · rcases List.mem_append.mp hi with hi | hi
      · exact Or.inl hi
      · exact Or.inr ⟨a, List.mem_cons_self a as, hi⟩
    · exact Or.inr ⟨r, List.mem_cons_of_mem _ hr, hx⟩

/-- C7 (amended): whatever grammar and start rule it is given, `printCfg`
never writes the sentinel byte: terminal index `0` is skipped outright,
and every other terminal index maps through `comp2char` to a positive
byte.  (The claim as stated is refuted by `sentinel_in_start_production`:
the sentinel *does* appear as terminal id `0` inside the start rule's
stored production; it is only the printed expansion that never shows it.) -/
theorem printCfg_no_sentinel (T : List Nat) (cfg : List (Nat × List Nat))
    (fuel rule : Nat) : (0 : Nat) ∉ printCfgOut T cfg fuel rule := by
  induction fuel generalizing rule with
  | zero =>
    intro hmem
    simp [printCfgOut] at hmem
  | succ f ih =>
    intro hmem
    simp only [printCfgOut] at hmem
    by_cases hr : rule < sigmaOf T
    · rw [if_pos hr] at hmem
      by_cases h0 : 0 < rule
      · rw [if_pos h0] at hmem
        have := List.mem_singleton.mp hmem
        have hpos := comp2char_pos T rule h0 hr
        omega
      · rw [if_neg h0] at hmem
        cases hmem
    · rw [if_neg hr] at hmem
      rcases mem_foldl_append _ _ _ _ hmem with hi | ⟨r, _, hx⟩
      · cases hi
      · exact ih r hx

/-- The sentinel terminal id `0` appears in the start rule's production
for the input `[1]`, refuting the claim's "including the start rule's". -/
theorem sentinel_in_start_production :
    alFind (csaToCfg [1] Alg.ONLINE).1 (csaToCfg [1] Alg.ONLINE).2
      = some [1, 0] ∧ (0 : Nat) ∈ [1, 0] := by
  constructor
  · decide
  · decide

/-- C9 refuted: usage failures do exit non-zero, but a successful run
also returns exit code `1`, not `0` — `main` ends in `return 1`. -/
theorem exit_code_one_on_success :
    mainExitCode 2 none ≠ 0 ∧ mainExitCode 3 none ≠ 0 ∧
    mainExitCode 3 (some Alg.ONLINE) = 1 := by
  refine ⟨?_, ?_, rfl⟩
  · decide
  · decide

/-- C1 refuted for the OPTIMAL stabber: on `[2,1,3,2,1,3,2,1]` the
expansion of the grammar it builds is not the input (the ONLINE run on
the same input does round-trip, isolating the OPTIMAL stabber). -/
theorem optimal_round_trip_fails :
    (printCfgOut [2,1,3,2,1,3,2,1] (csaToCfg [2,1,3,2,1,3,2,1] Alg.OPTIMAL).1
        ((csaToCfg [2,1,3,2,1,3,2,1] Alg.OPTIMAL).1.length + 2)
        (csaToCfg [2,1,3,2,1,3,2,1] Alg.OPTIMAL).2
      ≠ [2,1,3,2,1,3,2,1]) ∧
    (printCfgOut [2,1,3,2,1,3,2,1] (csaToCfg [2,1,3,2,1,3,2,1] Alg.ONLINE).1
        ((csaToCfg [2,1,3,2,1,3,2,1] Alg.ONLINE).1.length + 2)
        (csaToCfg [2,1,3,2,1,3,2,1] Alg.ONLINE).2
      = [2,1,3,2,1,3,2,1]) := by
  constructor
  · decide
  · decide

/-- C3 refuted: on `[2,2,1,2,2,1,3,1,3]` the LCP intervals `[4,7]` and
`[6,7]` (both real maximal-repeat candidates, nested, sharing their right
end) are updated, yet `stab 8` returns the id of `[4,7]` although
position `8` lies in neither updated interval — the initializer's stale
`_lookup` entry at the shared right end survives past the outer interval. -/
theorem optimal_stab_wrong_interval :
    (optStab (optUpdate (optUpdate (optInit [2,2,1,2,2,1,3,1,3]) 4 7 100) 6 7 101) 8
      = some 100) ∧ ¬(4 ≤ 8 ∧ 8 ≤ 7) ∧ ¬(6 ≤ 8 ∧ 8 ≤ 7) := by
  refine ⟨?_, ?_, ?_⟩
  · decide
  · decide
  · decide

/-- C4 refuted for the OPTIMAL stabber: in the final grammar for
`[2,1,3,2,1,3,2,1]` rule `5` has recorded size `3` but its production
expands to `4` terminals. -/
theorem optimal_size_mismatch :
    mapFind (buildFinal [2,1,3,2,1,3,2,1] Alg.OPTIMAL).sizes 5 = some 3 ∧
    (expandSyms [2,1,3,2,1,3,2,1] (csaToCfg [2,1,3,2,1,3,2,1] Alg.OPTIMAL).1 5 5).length
      = 4 := by
  constructor
  · decide
  · decide


end MrCfg
